import Mathlib

/-!
Verification of the core of the Omniscient Code Index (OCI).

This file shallowly embeds the data model and the operations of the
repository (`state.rs`, `incremental.rs`, `search/bm25.rs`, `query.rs`,
`analysis/dead_code.rs`, `topology.rs`) as executable Lean definitions and
proves or refutes the frozen claims about them.

Modelling conventions:
 - Interned strings (`lasso::Spur`) are modelled as `String`: interning is
   injective and `resolve (intern s) = s`, so handles and strings are
   interchangeable.
 - `DashMap`/`HashMap` instances are modelled as association lists with the
   map operations (first-match lookup, replace-or-append insert, remove).
 - `PathBuf` is modelled as `String`.
 - Machine integers (`u32`, `usize`) are modelled as `Nat`; the one place
   where saturation matters (`saturating_mul` in `execute_query`) models the
   saturation bound explicitly.
 - Floating point scores are irrelevant to every claim treated here; where a
   score value flows through a pipeline (`execute_query`) it is modelled as a
   rational, and the BM25 scorer itself is abstracted as a parameter.
-/

set_option maxHeartbeats 1000000

namespace Omni

/-! ### Association list helpers (model of DashMap / HashMap point operations) -/

/-- First-match lookup, as a hash map `get`. -/
def alookup {α β : Type} [DecidableEq α] (l : List (α × β)) (k : α) : Option β :=
  match l with
  | [] => none
  | (k0, v0) :: rest => if k0 = k then some v0 else alookup rest k

/-- Replace-or-append insert, as a hash map `insert`. -/
def ainsert {α β : Type} [DecidableEq α] (l : List (α × β)) (k : α) (v : β) :
    List (α × β) :=
  match l with
  | [] => [(k, v)]
  | (k0, v0) :: rest => if k0 = k then (k, v) :: rest else (k0, v0) :: ainsert rest k v

/-- Remove every entry with the given key, as a hash map `remove`. -/
def aremove {α β : Type} [DecidableEq α] (l : List (α × β)) (k : α) : List (α × β) :=
  l.filter (fun e => e.1 ≠ k)

/-- Update the value under a key in place when present (model of `get_mut`). -/
def aupdate {α β : Type} [DecidableEq α] (l : List (α × β)) (k : α) (f : β → β) :
    List (α × β) :=
  match l with
  | [] => []
  | (k0, v0) :: rest => if k0 = k then (k0, f v0) :: rest else (k0, v0) :: aupdate rest k f

/-! ### Data model (`types.rs`) -/

/-- Location: `types.rs` lines 81-89. `file` is a `PathBuf` modelled as `String`. -/
structure Location where
  file : String
  start_byte : Nat
  end_byte : Nat
  start_line : Nat
  start_col : Nat
  end_line : Nat
  end_col : Nat
  deriving Repr, DecidableEq

/-- Symbol kinds: `types.rs` lines 121-135. `mac` stands for the macro kind
(renamed to avoid a Lean keyword). -/
inductive SymbolKind where
  | function | method | struct | enum | trait | impl | const | static
  | module | typeAlias | mac | field | variant
  deriving Repr, DecidableEq

/-- Visibility: `types.rs` lines 159-170. `priv` is `Private`, `sup` is `Super`
(renamed to avoid Lean keywords). -/
inductive Visibility where
  | priv | crate | sup | restricted | pub
  deriving Repr, DecidableEq

/-- Signature: `types.rs` lines 173-185 (modifier booleans are irrelevant to
every claim; the async/unsafe/const flags are collapsed into `mods`). -/
structure Signature where
  params : List String
  return_type : Option String
  mods : List String := []
  deriving Repr, DecidableEq

/-- Symbol definition: `types.rs` lines 186-205. Interned strings are `String`. -/
structure SymbolDef where
  name : String
  scoped_name : String
  kind : SymbolKind
  location : Location
  signature : Option Signature
  visibility : Visibility
  attributes : List String
  doc_comment : Option String
  parent : Option String
  deriving Repr, DecidableEq

/-- Call edge: `types.rs` lines 208-218. -/
structure CallEdge where
  caller : String
  callee_name : String
  location : Location
  is_method_call : Bool
  deriving Repr, DecidableEq

/-- Import info: `types.rs` lines 220-231. -/
structure ImportInfo where
  path : String
  name : String
  is_glob : Bool
  location : Location
  deriving Repr, DecidableEq

/-! ### The shared index state (`state.rs`) -/

/-- The OCI state, `state.rs` lines 22-84, restricted to the fields the claims
touch.  The BM25 handle is kept abstract as a presence flag plus the rebuilt
index (claims only inspect presence via `stats`); the semantic index is a
presence flag; topology is kept as the node count plus the path map used by
`TopologyBuilder::remove_file`. -/
structure OciState where
  symbols : List (String × SymbolDef)
  name_to_scoped : List (String × List String)
  file_symbols : List (Nat × List String)
  call_edges : List CallEdge
  imports : List (Nat × List ImportInfo)
  file_ids : List (String × Nat)
  file_id_counter : Nat
  file_count : Nat
  symbol_count : Nat
  has_bm25_index : Bool
  has_semantic_index : Bool
  topology_node_count : Nat
  path_to_node : List (String × Nat)
  deriving Repr, DecidableEq

namespace OciState

/-- The empty state (`OciState::new`). -/
def empty : OciState where
  symbols := []
  name_to_scoped := []
  file_symbols := []
  call_edges := []
  imports := []
  file_ids := []
  file_id_counter := 0
  file_count := 0
  symbol_count := 0
  has_bm25_index := false
  has_semantic_index := false
  topology_node_count := 0
  path_to_node := []

/-- `OciState::get_or_create_file_id`, `state.rs` lines 124-132. -/
def get_or_create_file_id (st : OciState) (path : String) : Nat × OciState :=
  match alookup st.file_ids path with
  | some id => (id, st)
  | none =>
      let id := st.file_id_counter
      (id, { st with
              file_ids := ainsert st.file_ids path id
              file_id_counter := st.file_id_counter + 1
              file_count := st.file_count + 1 })

/-- `OciState::add_symbol`, `state.rs` lines 145-159: insert under the scoped
name, append the scoped name to the simple-name index, bump the counter. -/
def add_symbol (st : OciState) (symbol : SymbolDef) : OciState :=
  let sc := symbol.scoped_name
  let simple := symbol.name
  let prev := (alookup st.name_to_scoped simple).getD []
  { st with
    symbols := ainsert st.symbols sc symbol
    name_to_scoped := ainsert st.name_to_scoped simple (prev ++ [sc])
    symbol_count := st.symbol_count + 1 }

/-- `OciState::add_call_edge`, `state.rs` lines 162-164. -/
def add_call_edge (st : OciState) (edge : CallEdge) : OciState :=
  { st with call_edges := st.call_edges ++ [edge] }

/-- One iteration of the symbol-removal loop of `OciState::clear_file`,
`state.rs` lines 176-185: when the scoped name is still present, drop it from
the symbol map, purge it from its simple name's index entry, and decrement the
symbol counter. -/
def clear_syms_step (acc : OciState) (scoped_name : String) : OciState :=
  match alookup acc.symbols scoped_name with
  | none => acc
  | some sym =>
      { acc with
        symbols := aremove acc.symbols scoped_name
        name_to_scoped := aupdate acc.name_to_scoped sym.name
          (fun entry => entry.filter (fun s => s ≠ scoped_name))
        symbol_count := acc.symbol_count - 1 }

/-- `OciState::clear_file`, `state.rs` lines 167-199.  Early-returns when no
FileId exists for the path; otherwise removes the file's recorded symbols
from the symbol map and name index, drops the file-to-symbols entry and the
imports keyed by the FileId, and retains only call edges located outside the
file.  (When `file_symbols` has no entry for the FileId the loop body runs
zero times, which the `getD []` default captures.) -/
def clear_file (st : OciState) (path : String) : OciState :=
  match alookup st.file_ids path with
  | none => st
  | some file_id =>
      let syms := (alookup st.file_symbols file_id).getD []
      let st1 := syms.foldl clear_syms_step st
      { st1 with
        file_symbols := aremove st1.file_symbols file_id
        imports := aremove st1.imports file_id
        call_edges := st1.call_edges.filter (fun e => e.location.file ≠ path) }

/-- `OciState::get_symbol`, `state.rs` lines 202-204. -/
def get_symbol (st : OciState) (scoped_name : String) : Option SymbolDef :=
  alookup st.symbols scoped_name

/-- `OciState::find_by_name`, `state.rs` lines 207-222: look the simple name up
in the name index and resolve each scoped name through the symbol map. -/
def find_by_name (st : OciState) (name : String) : List SymbolDef :=
  match alookup st.name_to_scoped name with
  | none => []
  | some scoped_names => scoped_names.filterMap (fun s => alookup st.symbols s)

/-- `OciState::find_callers`, `state.rs` lines 225-232. -/
def find_callers (st : OciState) (callee_name : String) : List CallEdge :=
  st.call_edges.filter (fun e => e.callee_name = callee_name)

/-- `OciState::find_callees`, `state.rs` lines 235-242. -/
def find_callees (st : OciState) (caller_scoped : String) : List CallEdge :=
  st.call_edges.filter (fun e => e.caller = caller_scoped)

/-- `IndexStats`, `state.rs` lines 302-310. -/
structure IndexStats where
  file_count : Nat
  symbol_count : Nat
  call_edge_count : Nat
  topology_node_count : Nat
  has_semantic_index : Bool
  has_bm25_index : Bool
  deriving Repr, DecidableEq

/-- `OciState::stats`, `state.rs` lines 262-271. -/
def stats (st : OciState) : IndexStats where
  file_count := st.file_count
  symbol_count := st.symbol_count
  call_edge_count := st.call_edges.length
  topology_node_count := st.topology_node_count
  has_semantic_index := st.has_semantic_index
  has_bm25_index := st.has_bm25_index

/-- `OciState::reset`, `state.rs` lines 274-298. -/
def reset (_st : OciState) : OciState := OciState.empty

end OciState

/-! ### BM25 tokenizer (`search/bm25.rs` lines 297-341)

The tokenizer splits on characters that are not ASCII alphanumeric and not
underscore, drops empty pieces, and splits each remaining identifier on
camelCase and snake_case boundaries.  Every surviving piece consists of ASCII
word characters only, so the Rust byte-level loop of `split_identifier`
coincides with a character-level loop and is modelled on `List Char`. -/

/-- Characters the tokenizer keeps: ASCII alphanumeric or underscore
(the complement of the split predicate in `tokenize`, line 301). -/
def isWordChar (c : Char) : Bool := c.isAlphanum || c = '_'

/-- Model of `str::split` on a character predicate: split at every character
satisfying `p`, keeping empty pieces (Rust emits them too). -/
def splitOnPred (p : Char → Bool) : List Char → List (List Char)
  | [] => [[]]
  | c :: rest =>
      match splitOnPred p rest with
      | [] => [[]]
      | seg :: segs => if p c then [] :: seg :: segs else (c :: seg) :: segs

/-- A camelCase / snake_case boundary between two adjacent characters
(`split_identifier`, line 321). -/
def identBoundary (prev curr : Char) : Bool :=
  curr = '_' || (prev.isLower && curr.isUpper)

/-- Emit the pending chunk, `split_identifier` lines 324-326 and 331-333: the
chunk is pushed only when nonempty and not starting with an underscore. -/
def pushChunk (chunk : List Char) : List (List Char) :=
  match chunk with
  | [] => []
  | c :: _ => if c = '_' then [] else [chunk]

/-- The scanning loop of `split_identifier`, lines 316-333.  `prev` is the
previous character, `chunk` the characters from the current `start` position
up to the cursor.  On a boundary the chunk is emitted (subject to the
underscore guard) and a new chunk starts: empty after an underscore, seeded
with the current character on a case transition. -/
def splitIdentGo : List Char → Char → List Char → List (List Char)
  | [], _, chunk => pushChunk chunk
  | c :: rest, prev, chunk =>
      if identBoundary prev c then
        pushChunk chunk ++ splitIdentGo rest c (if c = '_' then [] else [c])
      else
        splitIdentGo rest c (chunk ++ [c])

/-- The sub-tokens produced by `split_identifier` before the compound token is
appended (lines 307-333). -/
def splitIdentifierSubs (s : List Char) : List (List Char) :=
  match s with
  | [] => []
  | c :: rest => splitIdentGo rest c [c]

/-- `split_identifier`, `search/bm25.rs` lines 307-341: the sub-tokens, plus
the full identifier when more than one sub-token was found. -/
def splitIdentifier (s : List Char) : List (List Char) :=
  let tokens := splitIdentifierSubs s
  if tokens.length > 1 then tokens ++ [s] else tokens

/-- `tokenize` on a character list, `search/bm25.rs` lines 300-304. -/
def tokenizeL (text : List Char) : List (List Char) :=
  (((splitOnPred (fun c => !isWordChar c) text).filter (fun s => s ≠ [])).map
      splitIdentifier).flatten

/-- `tokenize`, `search/bm25.rs` lines 300-304. -/
def tokenize (text : String) : List String :=
  (tokenizeL text.toList).map (fun l => String.mk l)

/-! ### UTF-8 safe slicing (`incremental.rs` lines 442-457)

The byte-boundary structure of a Rust `&str` is abstracted as a predicate
`B : Nat → Bool` (`str::is_char_boundary`) together with the byte length.
Rust guarantees `B 0 = true` and `B len = true`, which are the hypotheses of
the claim's theorem.  `boundariesOf` builds such a predicate from the byte
widths of the characters of a concrete string. -/

/-- The contraction loop of `slice_utf8`: `while s > 0 && !B s { s -= 1 }`. -/
def contractDown (B : Nat → Bool) : Nat → Nat
  | 0 => 0
  | n + 1 => if B (n + 1) then n + 1 else contractDown B n

/-- The expansion loop of `slice_utf8` as fuelled iteration:
`while e < len && !B e { e += 1 }`.  The fuel `len - e` is exactly the number
of steps the Rust loop can take. -/
def expandUpGo (B : Nat → Bool) (len : Nat) : Nat → Nat → Nat
  | e, 0 => e
  | e, fuel + 1 => if e < len && !B e then expandUpGo B len (e + 1) fuel else e

/-- The expansion loop of `slice_utf8` starting at `e`. -/
def expandUp (B : Nat → Bool) (len e : Nat) : Nat :=
  expandUpGo B len e (len - e)

/-- `slice_utf8`, `incremental.rs` lines 442-457: clamp the requested byte
range to the length, contract the start down and expand the end up to
character boundaries, and return the final byte range (`none` models the
early return of the empty slice when `s >= e`). -/
def sliceUtf8 (B : Nat → Bool) (len start stop : Nat) : Option (Nat × Nat) :=
  let s := contractDown B (min start len)
  let e := expandUp B len (min stop len)
  if s ≥ e then none else some (s, e)

/-- Boundary predicate of a string whose characters have the given byte
widths: a position is a character boundary when it is a partial sum of the
widths. -/
def boundariesOf (ws : List Nat) : Nat → Bool
  | 0 => true
  | n + 1 =>
      match ws with
      | [] => false
      | w :: rest => if w ≤ n + 1 then boundariesOf rest (n + 1 - w) else false

/-! ### BM25 index (`search/bm25.rs` lines 14-201)

Floating-point statistics (`avg_len_by_field`) and the scoring function are
not modelled: no claim treated here depends on score values, only on which
term frequencies are populated.  The `symbol_to_doc` side map is likewise
omitted.  The claims about `execute_query` abstract the scorer as a
parameter returning ranked results with rational scores. -/

/-- Decidable substring test (model of Rust `str::contains` with a literal
pattern). -/
def substrB (needle hay : String) : Bool := decide (needle.toList <:+: hay.toList)

/-- Model of Rust `str::starts_with` with a literal pattern. -/
def startsWithB (hay pre : String) : Bool := decide (pre.toList <+: hay.toList)

/-- ASCII lowercasing (model of `str::to_ascii_lowercase` / `to_lowercase`
on the ASCII tokens the tokenizer produces; `Char.toLower` only maps ASCII
letters). -/
def toLowerAscii (s : String) : String := String.mk (s.toList.map Char.toLower)

/-- Fuelled worker for splitting on a non-overlapping separator occurrence
(the semantics of Rust `str::split` with a literal pattern and of
`String.splitOn`); each step consumes at least one character, so the input
length is enough fuel. -/
def splitOnSepGo (sep : List Char) : Nat → List Char → List Char → List (List Char)
  | 0, acc, l => [acc.reverse ++ l]
  | fuel + 1, acc, l =>
      if sep ≠ [] ∧ sep <+: l then
        acc.reverse :: splitOnSepGo sep fuel [] (l.drop sep.length)
      else
        match l with
        | [] => [acc.reverse]
        | c :: rest => splitOnSepGo sep fuel (c :: acc) rest

/-- Split a string on every non-overlapping occurrence of a separator. -/
def splitOnSep (sep s : String) : List String :=
  (splitOnSepGo sep.toList (s.toList.length + 1) [] s.toList).map (fun l => String.mk l)

/-- Join strings with a separator (the semantics of `String.intercalate`). -/
def joinSep (sep : String) : List String → String
  | [] => ""
  | [x] => x
  | x :: rest => x ++ sep ++ joinSep sep rest

/-- Insert into a sorted list before the first element that is not earlier
(the building block of a stable sort). -/
def orderedInsertBy {α : Type} (le : α → α → Bool) (x : α) : List α → List α
  | [] => [x]
  | y :: ys => if le x y then x :: y :: ys else y :: orderedInsertBy le x ys

/-- A stable sort by a boolean "not after" relation (models Rust's stable
`sort_by`). -/
def insertionSortBy {α : Type} (le : α → α → Bool) : List α → List α
  | [] => []
  | x :: xs => orderedInsertBy le x (insertionSortBy le xs)

/-- The five BM25 fields, `search/bm25.rs` lines 16-22. -/
inductive Field where
  | path | ident | doc | stringLit | code
  deriving Repr, DecidableEq

/-- A per-field counter vector of length 5 (`[u32; 5]` in the source, indexed
by `Field::index`). -/
structure Tf5 where
  path : Nat := 0
  ident : Nat := 0
  doc : Nat := 0
  string_lit : Nat := 0
  code : Nat := 0
  deriving Repr, DecidableEq

/-- Read one component of a field vector. -/
def Tf5.get (t : Tf5) : Field → Nat
  | .path => t.path
  | .ident => t.ident
  | .doc => t.doc
  | .stringLit => t.string_lit
  | .code => t.code

/-- Increment one component of a field vector. -/
def Tf5.inc (t : Tf5) : Field → Tf5
  | .path => { t with path := t.path + 1 }
  | .ident => { t with ident := t.ident + 1 }
  | .doc => { t with doc := t.doc + 1 }
  | .stringLit => { t with string_lit := t.string_lit + 1 }
  | .code => { t with code := t.code + 1 }

/-- The unit vector of a field (a fresh posting's term-frequency vector). -/
def Tf5.one (f : Field) : Tf5 := Tf5.inc {} f

/-- A posting entry, `search/bm25.rs` lines 74-78. -/
structure Posting where
  doc_id : Nat
  tf_by_field : Tf5
  deriving Repr, DecidableEq

/-- Document statistics, `search/bm25.rs` lines 81-87.  `rebuild_bm25` fills
the symbol slot with the document id, so it is a `Nat` here. -/
structure DocStats where
  symbol : Nat
  len_by_field : Tf5
  text : String
  deriving Repr, DecidableEq

/-- The BM25 index, `search/bm25.rs` lines 90-102 (without the float
statistics, see the section comment). -/
structure Bm25Index where
  inv : List (String × List Posting) := []
  docs : List DocStats := []
  df : List (String × Nat) := []
  deriving Repr, DecidableEq

/-- The token-adding closure of `Bm25Index::add_document`, lines 131-152:
lowercase the token, then either bump the last posting of the term when it
already belongs to this document or append a fresh posting, and bump the
per-field length. -/
def addToken (doc_id : Nat) (acc : List (String × List Posting) × Tf5)
    (field : Field) (token : String) : List (String × List Posting) × Tf5 :=
  if token = "" then acc
  else
    let term := toLowerAscii token
    let postings := (alookup acc.1 term).getD []
    let postings2 :=
      match postings.getLast? with
      | some last =>
          if last.doc_id = doc_id then
            postings.dropLast ++ [{ last with tf_by_field := last.tf_by_field.inc field }]
          else postings ++ [⟨doc_id, Tf5.one field⟩]
      | none => postings ++ [⟨doc_id, Tf5.one field⟩]
    (ainsert acc.1 term postings2, acc.2.inc field)

/-- `Bm25Index::add_document`, `search/bm25.rs` lines 118-179: feed the five
token streams through `addToken` in field order (the code field tokens come
from tokenizing `code_text`), then record the document's statistics. -/
def Bm25Index.add_document (idx : Bm25Index) (symbol : Nat)
    (path_tokens ident_tokens doc_tokens string_tokens : List String)
    (code_text : String) : Bm25Index :=
  let doc_id := idx.docs.length
  let fields :=
    path_tokens.map (fun t => (Field.path, t))
    ++ ident_tokens.map (fun t => (Field.ident, t))
    ++ doc_tokens.map (fun t => (Field.doc, t))
    ++ string_tokens.map (fun t => (Field.stringLit, t))
    ++ (tokenize code_text).map (fun t => (Field.code, t))
  let res := fields.foldl (fun acc ft => addToken doc_id acc ft.1 ft.2) (idx.inv, {})
  { idx with
    inv := res.1
    docs := idx.docs ++ [⟨symbol, res.2, code_text⟩] }

/-- `Bm25Index::finalize`, `search/bm25.rs` lines 182-201 (the document
frequencies; the float averages are omitted, see the section comment). -/
def Bm25Index.finalize (idx : Bm25Index) : Bm25Index :=
  { idx with df := idx.inv.map (fun e => (e.1, e.2.length)) }

/-- An inverted index whose postings all have zero doc-comment and zero
string-literal term frequency. -/
def InvDocStrZero (inv : List (String × List Posting)) : Prop :=
  ∀ ts ∈ inv, ∀ pt ∈ ts.2,
    pt.tf_by_field.doc = 0 ∧ pt.tf_by_field.string_lit = 0

/-- The literal-scanning inner loop of `extract_string_literals`,
`search/bm25.rs` lines 416-422: collect characters up to the closing quote,
skipping one character after each backslash; `none` when the literal is
unterminated. -/
def takeLit : List Char → List Char → Option (List Char × List Char)
  | [], _ => none
  | '"' :: rest, acc => some (acc.reverse, rest)
  | '\\' :: c :: rest, acc => takeLit rest (c :: '\\' :: acc)
  | c :: rest, acc => takeLit rest (c :: acc)

/-- The outer scan of `extract_string_literals`, `search/bm25.rs` lines
412-431, fuelled by the input length (each step consumes at least one
character).  A completed literal is kept when nonempty and shorter than 200
bytes (the source inputs are ASCII here, so bytes coincide with characters). -/
def extractLitsGo : Nat → List Char → List String
  | 0, _ => []
  | fuel + 1, l =>
      match l with
      | [] => []
      | '"' :: rest =>
          match takeLit rest [] with
          | none => []
          | some (content, rest2) =>
              (if content ≠ [] ∧ content.length < 200 then [String.mk content] else [])
              ++ extractLitsGo fuel rest2
      | _ :: rest => extractLitsGo fuel rest

/-- `extract_string_literals`, `search/bm25.rs` lines 407-434. -/
def extract_string_literals (code : String) : List String :=
  extractLitsGo code.toList.length code.toList

/-- Strip the extension of one path component: everything before the last
dot, or the component itself when it has no dot (`rsplit_once` in
`path_tokens`, `search/bm25.rs` line 349). -/
def stripExt (s : String) : String :=
  let pieces := splitOnSep (".") s
  if pieces.length ≥ 2 then joinSep (".") pieces.dropLast else s

/-- `path_tokens`, `search/bm25.rs` lines 344-353: tokenize each path
component with its extension stripped, lowercased. -/
def path_tokens (path : String) : List String :=
  ((splitOnSep ("/") path).map (fun comp =>
      (tokenize (stripExt comp)).map toLowerAscii)).flatten

/-! ### Query layer (`query.rs`) -/

/-- A search document, `query.rs` lines 9-21. -/
structure SearchDoc where
  symbol : String
  file : String
  start_byte : Nat
  end_byte : Nat
  start_line : Nat
  end_line : Nat
  start_col : Nat
  end_col : Nat
  preview : String
  indexed_text : String
  deriving Repr, DecidableEq

/-- `rebuild_bm25`, `query.rs` lines 261-282: every document contributes its
path tokens, the tokens of its symbol, *empty* doc-comment and string-literal
token streams, and its indexed text as the code field; then finalize. -/
def rebuild_bm25 (docs : List SearchDoc) : Bm25Index :=
  let built := docs.foldl (fun (acc : Bm25Index × Nat) doc =>
      (acc.1.add_document acc.2 (path_tokens doc.file) (tokenize doc.symbol) [] []
        doc.indexed_text,
       acc.2 + 1)) ({}, 0)
  built.1.finalize

/-- `prune_docs_for_files`, `query.rs` lines 284-289. -/
def prune_docs_for_files (docs : List SearchDoc) (files : List String) : List SearchDoc :=
  docs.filter (fun doc => ¬ files.contains doc.file)

/-- Query filters, `query.rs` lines 36-41. -/
structure QueryFilters where
  include_paths : List String := []
  exclude_paths : List String := []
  include_exts : List String := []
  exclude_exts : List String := []
  deriving Repr, DecidableEq

/-- A ranked BM25 result as consumed by `execute_query` (`Bm25SearchResult`,
`search/bm25.rs` lines 105-110, with the float score as a rational). -/
structure Bm25SearchResult where
  doc_id : Nat
  score : ℚ
  deriving Repr, DecidableEq

/-- A query result, `query.rs` lines 43-56. -/
structure QueryResult where
  doc_id : Nat
  symbol : String
  file : String
  start_byte : Nat
  end_byte : Nat
  start_line : Nat
  end_line : Nat
  start_col : Nat
  end_col : Nat
  score : ℚ
  preview : String
  deriving Repr, DecidableEq

/-- The extension of a file path as `Path::extension` computes it: the piece
after the last dot of the final component, empty when there is none or when
the component is a dot-file (`matches_filters`, `query.rs` lines 244-248). -/
def extOf (file : String) : String :=
  let base := (splitOnSep ("/") file).getLastD ("")
  let pieces := splitOnSep (".") base
  if pieces.length ≥ 2 ∧ joinSep (".") pieces.dropLast ≠ "" then
    pieces.getLastD ("")
  else ""

/-- `matches_filters`, `query.rs` lines 224-259. -/
def matches_filters (doc : SearchDoc) (filters : QueryFilters) : Bool :=
  (filters.include_paths.isEmpty
    || filters.include_paths.any (fun pat => substrB pat doc.file))
  && filters.exclude_paths.all (fun pat => ¬ substrB pat doc.file)
  && (let ext := toLowerAscii (extOf doc.file)
      (filters.include_exts.isEmpty || filters.include_exts.contains ext)
      && ¬ filters.exclude_exts.contains ext)

/-- The saturation bound of `usize::saturating_mul` on a 64-bit target. -/
def usizeMax : Nat := 2 ^ 64 - 1

/-- The internal BM25 top-K of `execute_query`, `query.rs` line 170:
`top_k.saturating_mul(5).max(top_k).min(1000)`. -/
def searchK (top_k : Nat) : Nat :=
  min (max (min (top_k * 5) usizeMax) top_k) 1000

/-- Build one query result from a matching document, `query.rs` lines
189-201: byte offsets are passed through, line and column positions are
translated from 0-based to 1-based. -/
def mkQueryResult (doc_id : Nat) (score : ℚ) (doc : SearchDoc) : QueryResult where
  doc_id := doc_id
  symbol := doc.symbol
  file := doc.file
  start_byte := doc.start_byte
  end_byte := doc.end_byte
  start_line := doc.start_line + 1
  end_line := doc.end_line + 1
  start_col := doc.start_col + 1
  end_col := doc.end_col + 1
  score := score
  preview := doc.preview

/-- The comparator of the final sort in `execute_query`, `query.rs` lines
204-210, as a boolean "not after" relation: score descending, then file path
ascending, then start byte ascending. -/
def queryLe (a b : QueryResult) : Bool :=
  if b.score < a.score then true
  else if a.score < b.score then false
  else if a.file < b.file then true
  else if b.file < a.file then false
  else a.start_byte ≤ b.start_byte

/-- `execute_query`, `query.rs` lines 164-222, with the BM25 scorer
abstracted as `searchFn` (the source calls `index.bm25.search` with the
default weights and parameters and the internal top-K): filter the scored
results against the document list and the query filters, translate
positions, sort, and truncate to `top_k`. -/
def execute_query (searchFn : String → Nat → List Bm25SearchResult)
    (docs : List SearchDoc) (query : String) (top_k : Nat)
    (filters : QueryFilters) : List QueryResult :=
  let results := searchFn query (searchK top_k)
  let filtered := results.foldl (fun acc r =>
      match docs[r.doc_id]? with
      | none => acc
      | some doc =>
          if matches_filters doc filters then acc ++ [mkQueryResult r.doc_id r.score doc]
          else acc) []
  let sorted := insertionSortBy queryLe filtered
  if sorted.length > top_k then sorted.take top_k else sorted

/-! ### Dead-code analyzer (`analysis/dead_code.rs`)

The source computes the reachable set with a worklist BFS whose queue only
ever receives scoped names freshly inserted into the visited set; the
visited set it returns is exactly the closure of the entry points under the
one-step successor function (`find_callees`, resolved through
`find_by_name`, plus the parent pointer).  The model computes that same
closure by bounded saturation: every insertable name is either the scoped
name or the parent recorded in some entry of the symbol map, so
`2 * |symbols| + 2` rounds are enough to reach the fixed point. -/

/-- `DeadCodeAnalyzer::is_entry_point`, `analysis/dead_code.rs` lines 73-117. -/
def is_entry_point (st : OciState) (symbol : SymbolDef) : Bool :=
  decide (symbol.name = "main" ∧ symbol.kind = SymbolKind.function)
  || symbol.attributes.any (fun attr => substrB ("test") attr)
  || decide (symbol.visibility = Visibility.pub)
  || decide (symbol.visibility = Visibility.crate)
  || decide (symbol.kind = SymbolKind.impl)
  || (decide (symbol.kind = SymbolKind.method)
      && (match symbol.parent with
          | some parent =>
              match st.get_symbol parent with
              | some parent_sym => decide (parent_sym.kind = SymbolKind.impl)
              | none => false
          | none => false))

/-- `DeadCodeAnalyzer::identify_entry_points`, `analysis/dead_code.rs` lines
55-70: the scoped-name keys of the symbols satisfying `is_entry_point`. -/
def identify_entry_points (st : OciState) : List String :=
  (st.symbols.filter (fun e => is_entry_point st e.2)).map (fun e => e.1)

/-- One BFS expansion of a scoped name, `analysis/dead_code.rs` lines
137-163: the scoped names of the symbols resolving the callee names of its
outgoing call edges, plus its parent when it has one. -/
def reachSuccs (st : OciState) (current : String) : List String :=
  ((st.find_callees current).map (fun edge =>
      (st.find_by_name edge.callee_name).map (fun s => s.scoped_name))).flatten
  ++ (match st.get_symbol current with
      | some sym => sym.parent.toList
      | none => [])

/-- Set-insert into a visited list (model of `HashSet::insert`). -/
def insertNew (acc : List String) (y : String) : List String :=
  if y ∈ acc then acc else acc ++ [y]

/-- One saturation round: expand every visited name and add the results. -/
def reachStep (st : OciState) (reach : List String) : List String :=
  reach.foldl (fun acc x => (reachSuccs st x).foldl insertNew acc) reach

/-- `DeadCodeAnalyzer::compute_reachable`, `analysis/dead_code.rs` lines
122-167: the closure of the entry points under `reachSuccs` (see the section
comment for the bound on the rounds). -/
def compute_reachable (st : OciState) (entry_points : List String) : List String :=
  (reachStep st)^[2 * st.symbols.length + 2] (entry_points.foldl insertNew [])

/-- `DeadCodeAnalyzer::find_dead_symbols`, `analysis/dead_code.rs` lines
169-198: unreached symbol keys, excluding modules, fields and variants. -/
def find_dead_symbols (st : OciState) (reachable : List String) : List String :=
  (st.symbols.filter (fun e =>
      ¬ reachable.contains e.1
      ∧ ¬ (e.2.kind = SymbolKind.module ∨ e.2.kind = SymbolKind.field
            ∨ e.2.kind = SymbolKind.variant))).map (fun e => e.1)

/-- `DeadCodeAnalyzer::identify_potentially_live`, `analysis/dead_code.rs`
lines 206-250. -/
def identify_potentially_live (st : OciState) (reachable : List String) : List String :=
  (st.symbols.filter (fun e =>
      ¬ reachable.contains e.1
      ∧ (e.2.attributes.any (fun attr =>
            substrB ("derive") attr || substrB ("macro") attr
            || substrB ("no_mangle") attr || substrB ("export_name") attr
            || substrB ("link_name") attr || substrB ("used") attr)
          ∨ e.2.kind = SymbolKind.const ∨ e.2.kind = SymbolKind.static
          ∨ e.2.kind = SymbolKind.mac))).map (fun e => e.1)

/-- `DeadCodeReport`, `types.rs` lines 270-277. -/
structure DeadCodeReport where
  dead_symbols : List String
  entry_points : List String
  potentially_live : List String
  deriving Repr, DecidableEq

/-- `DeadCodeAnalyzer::analyze`, `analysis/dead_code.rs` lines 27-46. -/
def analyze (st : OciState) : DeadCodeReport :=
  let entry_points := identify_entry_points st
  let reachable := compute_reachable st entry_points
  { dead_symbols := find_dead_symbols st reachable
    entry_points := entry_points
    potentially_live := identify_potentially_live st reachable }

/-- A state's symbol map is consistently indexed: every entry's value
records the entry's key as its scoped name, and the key is listed under the
value's simple name in the name index.  `add_symbol` establishes this for
each inserted symbol and `clear_file` only removes, so every state built
through the public write API satisfies it. -/
def NameIndexed (st : OciState) : Prop :=
  ∀ k v, alookup st.symbols k = some v →
    v.scoped_name = k ∧ k ∈ (alookup st.name_to_scoped v.name).getD []

/-! ### Topology import resolution (`topology.rs` lines 326-405)

The topology graph's nodes are modelled as a list in node-index order (the
crate root is inserted first by `build`, then files and synthesized modules
in discovery order).  `resolve_import_target` iterates `graph.node_indices()`
in exactly that order. -/

/-- A topology node, `types.rs` lines 28-46, reduced to the data
`resolve_import_target` inspects. -/
inductive TopoNode where
  | crate (name : String)
  | module (name : String)
  | file (path : String)
  deriving Repr, DecidableEq

/-- Rust `Path::file_stem`: the final component without its extension; the
whole component when it has no dot or is a dot-file. -/
def fileStem (path : String) : Option String :=
  let base := (splitOnSep ("/") path).getLastD ("")
  if base = "" then none
  else
    let pieces := splitOnSep (".") base
    if pieces.length ≥ 2 ∧ joinSep (".") pieces.dropLast ≠ "" then
      some (joinSep (".") pieces.dropLast)
    else some base

/-- The per-node match test of `resolve_import_target`, `topology.rs` lines
382-401: modules match when the import path *contains* the module name,
files when it contains the file stem, crates when it *starts with* the crate
name. -/
def nodeMatches (import_path : String) (n : TopoNode) : Bool :=
  match n with
  | .module name => substrB name import_path
  | .file path =>
      match fileStem path with
      | some stem => substrB stem import_path
      | none => false
  | .crate name => startsWithB import_path name

/-- `TopologyBuilder::resolve_import_target`, `topology.rs` lines 375-405:
the first node in node order that matches. -/
def resolve_import_target (nodes : List TopoNode) (import_path : String) : Option Nat :=
  nodes.findIdx? (nodeMatches import_path)

/-- `TopologyBuilder::build_import_edges`, `topology.rs` lines 326-372: one
Imports edge `(source node, target node, use path, is_glob)` per import that
resolves; unresolved imports are dropped. -/
def build_import_edges (nodes : List TopoNode) (imports : List (Nat × ImportInfo)) :
    List (Nat × Nat × String × Bool) :=
  imports.filterMap (fun si =>
    (resolve_import_target nodes si.2.path).map (fun t => (si.1, t, si.2.path, si.2.is_glob)))

/-- The segments of an import path (`::`-separated components). -/
def pathSegments (import_path : String) : List String := splitOnSep ("::") import_path

/-- Modelled from the spec (§4.5 step 4), for comparison with
`resolve_import_target`: the first topology node whose *name equals a
segment* of the import path, preferring exact crate names, then module
names, then file stems. -/
def spec_resolve_import_target (nodes : List TopoNode) (import_path : String) :
    Option Nat :=
  let seg := pathSegments import_path
  match nodes.findIdx? (fun n => match n with
      | .crate name => seg.contains name
      | _ => false) with
  | some i => some i
  | none =>
      match nodes.findIdx? (fun n => match n with
          | .module name => seg.contains name
          | _ => false) with
      | some i => some i
      | none =>
          nodes.findIdx? (fun n => match n with
            | .file p => (match fileStem p with
                          | some stem => seg.contains stem
                          | none => false)
            | _ => false)

/-! ### Incremental indexer (`incremental.rs`)

The filesystem is abstracted as the discovery result `fs` (relative path and
current fingerprint, in walk order, after the `parser_for_file` filter)
together with `parsedOf`, the parse outcome per file (`none` models a read
or parse failure).  The cache round-trips (`save`/`load` of the manifest and
of the search docs) are modelled by passing the saved values to the next
run, and the root prefix is dropped so relative paths serve as paths.  The
`HashSet`s of the source (`changed_files`, `removed_files`, `drop_docs_for`)
are modelled as duplicate-free lists; only their membership and cardinality
are ever used. -/

/-- A file fingerprint, `cache.rs` (`FileFingerprint`). -/
structure FileFingerprint where
  mtime_ms : Nat
  size_bytes : Nat
  deriving Repr, DecidableEq

/-- The manifest's file map (`IndexManifest.files`; the version and root
checks of `load_or_init_manifest` match between two runs of one process on
one root, which is the situation of every claim here). -/
abbrev Manifest := List (String × FileFingerprint)

/-- The outcome of parsing one file (`ParsedFile`, `incremental.rs` lines
55-61). -/
structure ParsedFile where
  symbols : List SymbolDef
  calls : List CallEdge
  imports : List ImportInfo
  docs : List SearchDoc
  deriving Repr, DecidableEq

/-- `IndexReport`, `incremental.rs` lines 46-53. -/
structure IndexReport where
  total_files : Nat := 0
  parsed_files : Nat := 0
  skipped_files : Nat := 0
  removed_files : Nat := 0
  docs_indexed : Nat := 0
  deriving Repr, DecidableEq

/-- `IncrementalIndexer::apply_parsed`, `incremental.rs` lines 254-277:
nothing happens for an entirely empty parse; otherwise the file id is
created, symbols are added and recorded under the file, calls appended, and
imports stored. -/
def apply_parsed (st : OciState) (path : String) (parsed : ParsedFile) : OciState :=
  if parsed.symbols = [] ∧ parsed.calls = [] ∧ parsed.imports = [] then st
  else
    let idSt := st.get_or_create_file_id path
    let file_id := idSt.1
    let st2 := parsed.symbols.foldl OciState.add_symbol idSt.2
    let file_symbol_names := parsed.symbols.map (fun s => s.scoped_name)
    let st3 :=
      if file_symbol_names = [] then st2
      else { st2 with file_symbols := ainsert st2.file_symbols file_id file_symbol_names }
    let st4 := parsed.calls.foldl OciState.add_call_edge st3
    if parsed.imports = [] then st4
    else { st4 with imports := ainsert st4.imports file_id parsed.imports }

/-- `TopologyBuilder::remove_file`, `topology.rs` lines 117-137: drop the
node (when the path is known), then `clear_file`. -/
def topo_remove_file (st : OciState) (path : String) : OciState :=
  match alookup st.path_to_node path with
  | none => st
  | some _node =>
      let st1 := { st with
        path_to_node := aremove st.path_to_node path
        topology_node_count := st.topology_node_count - 1 }
      st1.clear_file path

/-- `IncrementalIndexer::remove_file`, `incremental.rs` lines 306-309:
`clear_file` then the topology removal (which clears again). -/
def remove_file (st : OciState) (path : String) : OciState :=
  topo_remove_file (st.clear_file path) path

/-- `IncrementalIndexer::update_file`, `incremental.rs` lines 292-303:
`clear_file`, then re-index; a failed parse leaves the file cleared and
produces no docs (the `Err` branch of the caller). -/
def update_file (st : OciState) (path : String) (parsed : Option ParsedFile) :
    OciState × Option (List SearchDoc) :=
  let st1 := st.clear_file path
  match parsed with
  | none => (st1, none)
  | some pf => (apply_parsed st1 path pf, some pf.docs)

/-- Accumulator of the classification loop of `index`, `incremental.rs`
lines 144-158. -/
structure ClassifyAcc where
  skipped : Nat
  changed : List String
  manifest : Manifest
  deriving Repr, DecidableEq

/-- One step of the classification loop: a manifest entry equal to the
current fingerprint counts as skipped; anything else (a differing entry or a
missing one) is recorded as changed and the manifest entry is updated.  (The
source matches `Some(prev) if *prev == fingerprint`; that guard holds
exactly when the lookup equals the fingerprint.) -/
def classifyStep (acc : ClassifyAcc) (f : String × FileFingerprint) : ClassifyAcc :=
  if alookup acc.manifest f.1 = some f.2 then { acc with skipped := acc.skipped + 1 }
  else { acc with
          changed := acc.changed ++ [f.1]
          manifest := ainsert acc.manifest f.1 f.2 }

/-- The outcome of one `index` run: the report, the state, and the persisted
manifest and search docs (which the next run loads back). -/
structure IndexOutcome where
  report : IndexReport
  state : OciState
  manifest : Manifest
  docs : List SearchDoc
  deriving Repr, DecidableEq

/-- `IncrementalIndexer::index`, `incremental.rs` lines 109-212.  With
`force` the cache is purged and the state reset, so the manifest and docs
load as empty.  Then: classify every discovered file against the manifest;
drop manifest entries for files no longer discovered; prune docs of changed
and removed files; `remove_file` the removed ones; `update_file` the changed
ones, appending their docs and counting successful parses; install the
rebuilt BM25 index; report. -/
def indexRunCore (parsedOf : String → Option ParsedFile)
    (fs : List (String × FileFingerprint))
    (st0 : OciState) (manifest0 : Manifest) (docs0 : List SearchDoc) : IndexOutcome :=
  let cls := fs.foldl classifyStep ⟨0, [], manifest0⟩
  let seenKeys := fs.map (fun f => f.1)
  let removedKeys := ((cls.manifest.map (fun e => e.1)).filter
      (fun k => ¬ seenKeys.contains k)).dedup
  let manifest1 := removedKeys.foldl aremove cls.manifest
  let dropFor := cls.changed ++ removedKeys
  let docs1 := if dropFor = [] then docs0 else prune_docs_for_files docs0 dropFor
  let st1 := removedKeys.foldl remove_file st0
  let upd := cls.changed.foldl (fun (acc : OciState × Nat × List SearchDoc) rel =>
      match update_file acc.1 rel (parsedOf rel) with
      | (stN, some fdocs) => (stN, acc.2.1 + 1, acc.2.2 ++ fdocs)
      | (stN, none) => (stN, acc.2.1, acc.2.2)) (st1, 0, docs1)
  let st3 := { upd.1 with has_bm25_index := true }
  { report := { total_files := fs.length
                parsed_files := upd.2.1
                skipped_files := cls.skipped
                removed_files := removedKeys.length
                docs_indexed := upd.2.2.length - docs1.length }
    state := st3
    manifest := manifest1
    docs := upd.2.2 }

/-- `IncrementalIndexer::index`: with `force` the cache is purged and the
state reset, so the manifest and docs load as empty; then the core pipeline
runs (see `indexRunCore`). -/
def indexRun (parsedOf : String → Option ParsedFile)
    (fs : List (String × FileFingerprint)) (force : Bool)
    (st : OciState) (manifest : Manifest) (docs : List SearchDoc) : IndexOutcome :=
  indexRunCore parsedOf fs (if force then st.reset else st)
    (if force then [] else manifest) (if force then [] else docs)

/-! ### Concrete instances used by counterexamples and witnesses -/

/-- A location inside the file `src/a.rs` (byte range 0-10). -/
def locA : Location := ⟨"src/a.rs", 0, 10, 0, 0, 0, 0⟩

/-- A private function symbol `crate::f` defined in `src/a.rs`. -/
def symA : SymbolDef :=
  ⟨"f", "crate::f", SymbolKind.function, locA, none, Visibility.priv, [], none, none⟩

/-- The same scoped name re-added as a struct (for the duplicate-insertion
claim). -/
def symA2 : SymbolDef :=
  ⟨"f", "crate::f", SymbolKind.struct, locA, none, Visibility.priv, [], none, none⟩

/-- A state holding `symA` but with no FileId and no file-to-symbols entry
for `src/a.rs` (as a bare `add_symbol` caller produces). -/
def stBare : OciState := OciState.empty.add_symbol symA

/-- A call edge located in `src/a.rs`. -/
def edgeA : CallEdge := ⟨"crate::main", "f", locA, false⟩

/-- A consistently registered state for `src/a.rs`: the symbol is recorded
under FileId 0 in `file_symbols`, imports and an edge are present. -/
def stReg : OciState :=
  { stBare with
    file_ids := [("src/a.rs", 0)]
    file_id_counter := 1
    file_count := 1
    file_symbols := [(0, ["crate::f"])]
    imports := [(0, [⟨"std::fmt", "fmt", false, locA⟩])]
    call_edges := [edgeA] }

/-- Scenario state for the dead-code claim: `crate::main` (entry point) calls
`helper`; `crate::dead` is never called. -/
def stDead : OciState :=
  ((((OciState.empty.add_symbol
        ⟨"main", "crate::main", SymbolKind.function, locA, none, Visibility.priv, [], none, none⟩).add_symbol
        ⟨"helper", "crate::helper", SymbolKind.function, locA, none, Visibility.priv, [], none, none⟩).add_symbol
        ⟨"dead", "crate::dead", SymbolKind.function, locA, none, Visibility.priv, [], none, none⟩).add_call_edge
        ⟨"crate::main", "helper", locA, false⟩)

/-- Topology nodes where the substring/order semantics of
`resolve_import_target` and the segment/preference semantics of the spec
disagree on the import path `foo::bar`: the file stem `oo` is a substring
but not a segment, and it precedes the module `bar` in node order. -/
def nodesC6 : List TopoNode :=
  [TopoNode.crate ("zzz"), TopoNode.file ("src/oo.rs"), TopoNode.module ("bar")]

/-- A search document whose indexed text carries a doc comment and a string
literal (for the BM25 field-population claim). -/
def docC4 : SearchDoc :=
  ⟨"crate::f", "src/a.rs", 0, 5, 0, 0, 0, 0, "p",
    "/// adds numbers\nfn f() \x7b let s = \"magic\"; \x7d"⟩

/-- A one-file filesystem snapshot and its parse outcome (for the
incremental no-op claim). -/
def fsC2 : List (String × FileFingerprint) := [("src/a.rs", ⟨100, 10⟩)]

/-- The parse outcome of the one file of `fsC2`. -/
def parsedC2 : String → Option ParsedFile :=
  fun rel => if rel = "src/a.rs" then some ⟨[symA], [], [], [docC4]⟩ else none

/-- First incremental run on `fsC2` from the empty state and empty cache. -/
def runC2a : IndexOutcome := indexRun parsedC2 fsC2 false OciState.empty [] []

/-- Second incremental run, force mode, on the outcome of the first. -/
def runC2force : IndexOutcome :=
  indexRun parsedC2 fsC2 true runC2a.state runC2a.manifest runC2a.docs

/-- Concrete boundary predicate of the two-character string "aé" (byte
widths 1 and 2; boundaries at 0, 1 and 3). -/
def bAe : Nat → Bool := boundariesOf [1, 2]

/-- Query documents for the query-pipeline witness: two documents in
different files. -/
def docsC7 : List SearchDoc :=
  [⟨"crate::f", "src/a.rs", 4, 9, 2, 3, 1, 2, "pf", "fn f()"⟩,
   ⟨"crate::g", "src/b.ts", 7, 8, 5, 6, 0, 1, "pg", "fn g()"⟩]

/-- A ranked-result function for the query-pipeline witness: the scorer
returns both documents, the second one first with the lower score. -/
def searchFnC7 : String → Nat → List Bm25SearchResult :=
  fun _q _k => [⟨1, (1 : ℚ)⟩, ⟨0, (2 : ℚ)⟩]

/-! ## Lemmas about the map model -/

theorem alookup_cons {α β : Type} [DecidableEq α] (k0 : α) (v0 : β)
    (rest : List (α × β)) (k : α) :
    alookup ((k0, v0) :: rest) k = if k0 = k then some v0 else alookup rest k := rfl

theorem alookup_ne_of_none {α β : Type} [DecidableEq α] :
    ∀ (l : List (α × β)) (k : α), alookup l k = none → ∀ e ∈ l, e.1 ≠ k
  | [], _, _, e, he => absurd he (List.not_mem_nil e)
  | (k0, v0) :: rest, k, h, e, he => by
      rw [alookup_cons] at h
      by_cases hk : k0 = k
      · simp [hk] at h
      · rcases List.mem_cons.mp he with rfl | he2
        · simpa using hk
        · exact alookup_ne_of_none rest k (by simpa [hk] using h) e he2

theorem alookup_append_of_none {α β : Type} [DecidableEq α] :
    ∀ (l1 l2 : List (α × β)) (k : α), alookup l1 k = none →
      alookup (l1 ++ l2) k = alookup l2 k
  | [], _, _, _ => rfl
  | (k0, v0) :: rest, l2, k, h => by
      rw [alookup_cons] at h
      by_cases hk : k0 = k
      · simp [hk] at h
      · rw [List.cons_append, alookup_cons, if_neg hk]
        exact alookup_append_of_none rest l2 k (by simpa [hk] using h)

theorem alookup_append_of_some {α β : Type} [DecidableEq α] :
    ∀ (l1 l2 : List (α × β)) (k : α) (v : β), alookup l1 k = some v →
      alookup (l1 ++ l2) k = some v
  | [], _, _, _, h => by simp [alookup] at h
  | (k0, v0) :: rest, l2, k, v, h => by
      rw [alookup_cons] at h
      by_cases hk : k0 = k
      · rw [if_pos hk] at h
        rw [List.cons_append, alookup_cons, if_pos hk]
        exact h
      · rw [if_neg hk] at h
        rw [List.cons_append, alookup_cons, if_neg hk]
        exact alookup_append_of_some rest l2 k v h

theorem ainsert_of_none {α β : Type} [DecidableEq α] :
    ∀ (l : List (α × β)) (k : α) (v : β), alookup l k = none →
      ainsert l k v = l ++ [(k, v)]
  | [], _, _, _ => rfl
  | (k0, v0) :: rest, k, v, h => by
      rw [alookup_cons] at h
      by_cases hk : k0 = k
      · simp [hk] at h
      · show (if k0 = k then _ else _) = _
        rw [if_neg hk, List.cons_append]
        exact congrArg _ (ainsert_of_none rest k v (by simpa [hk] using h))

theorem ainsert_append_last {α β : Type} [DecidableEq α] :
    ∀ (l : List (α × β)) (k : α) (v1 v2 : β), alookup l k = none →
      ainsert (l ++ [(k, v1)]) k v2 = l ++ [(k, v2)]
  | [], k, v1, v2, _ => by simp [ainsert]
  | (k0, v0) :: rest, k, v1, v2, h => by
      rw [alookup_cons] at h
      by_cases hk : k0 = k
      · simp [hk] at h
      · show (if k0 = k then _ else _) = _
        rw [if_neg hk, List.cons_append]
        exact congrArg _ (ainsert_append_last rest k v1 v2 (by simpa [hk] using h))

theorem aremove_cons_self {α β : Type} [DecidableEq α] {k0 j : α} (v0 : β)
    (rest : List (α × β)) (hj : k0 = j) :
    aremove ((k0, v0) :: rest) j = aremove rest j := by
  simp [aremove, List.filter_cons, hj]

theorem aremove_cons_ne {α β : Type} [DecidableEq α] {k0 j : α} (v0 : β)
    (rest : List (α × β)) (hj : ¬ k0 = j) :
    aremove ((k0, v0) :: rest) j = (k0, v0) :: aremove rest j := by
  simp [aremove, List.filter_cons, hj]

theorem alookup_aremove_self {α β : Type} [DecidableEq α] :
    ∀ (l : List (α × β)) (k : α), alookup (aremove l k) k = none
  | [], _ => rfl
  | (k0, v0) :: rest, k => by
      by_cases hk : k0 = k
      · rw [aremove_cons_self v0 rest hk]
        exact alookup_aremove_self rest k
      · rw [aremove_cons_ne v0 rest hk, alookup_cons, if_neg hk]
        exact alookup_aremove_self rest k

theorem alookup_aremove_of_some {α β : Type} [DecidableEq α] :
    ∀ (l : List (α × β)) (j k : α) (v : β),
      alookup (aremove l j) k = some v → alookup l k = some v
  | [], _, _, _, h => by simp [aremove, alookup] at h
  | (k0, v0) :: rest, j, k, v, h => by
      by_cases hj : k0 = j
      · rw [aremove_cons_self v0 rest hj] at h
        by_cases hk : k0 = k
        · rw [show j = k from hj.symm.trans hk] at h
          rw [alookup_aremove_self rest k] at h
          cases h
        · rw [alookup_cons, if_neg hk]
          exact alookup_aremove_of_some rest j k v h
      · rw [aremove_cons_ne v0 rest hj] at h
        rw [alookup_cons] at h ⊢
        by_cases hk : k0 = k
        · rwa [if_pos hk] at h ⊢
        · rw [if_neg hk] at h ⊢
          exact alookup_aremove_of_some rest j k v h

/-! ## C9 : add_symbol is not idempotent -/

/-- C9: `add_symbol` is not idempotent: every call increments the symbol
counter by exactly 1 and appends the scoped name to the simple-name index
unconditionally, so calling it twice with the same scoped name leaves exactly
one entry in the symbols map (the second definition wins) but two copies of
the scoped name under the simple name, and `find_by_name` returns the
surviving definition twice while `stats().symbol_count` exceeds the number
of distinct symbols (here: it rises by 2 while the map grows by 1). -/
theorem C9_add_symbol_not_idempotent (st : OciState) (s1 s2 : SymbolDef) (k n : String)
    (h1 : s1.scoped_name = k) (h2 : s2.scoped_name = k)
    (h3 : s1.name = n) (h4 : s2.name = n)
    (hk : alookup st.symbols k = none)
    (hn : alookup st.name_to_scoped n = none) :
    ((st.add_symbol s1).add_symbol s2).symbol_count = st.symbol_count + 2
    ∧ alookup ((st.add_symbol s1).add_symbol s2).symbols k = some s2
    ∧ (((st.add_symbol s1).add_symbol s2).symbols.filter
        (fun e => e.1 = k)).length = 1
    ∧ alookup ((st.add_symbol s1).add_symbol s2).name_to_scoped n = some [k, k]
    ∧ ((st.add_symbol s1).add_symbol s2).find_by_name n = [s2, s2]
    ∧ ((st.add_symbol s1).add_symbol s2).symbols.length = st.symbols.length + 1 := by
  have hsym1 : (st.add_symbol s1).symbols = st.symbols ++ [(k, s1)] := by
    simp only [OciState.add_symbol, h1]
    exact ainsert_of_none st.symbols k s1 hk
  have hn2s1 : (st.add_symbol s1).name_to_scoped = st.name_to_scoped ++ [(n, [k])] := by
    simp only [OciState.add_symbol, h1, h3, hn, Option.getD_none, List.nil_append]
    exact ainsert_of_none st.name_to_scoped n [k] hn
  have hsym2 : ((st.add_symbol s1).add_symbol s2).symbols = st.symbols ++ [(k, s2)] := by
    show ainsert (st.add_symbol s1).symbols s2.scoped_name s2 = _
    rw [hsym1, h2]
    exact ainsert_append_last st.symbols k s1 s2 hk
  have hn2s2 : ((st.add_symbol s1).add_symbol s2).name_to_scoped
      = st.name_to_scoped ++ [(n, [k, k])] := by
    show ainsert (st.add_symbol s1).name_to_scoped s2.name
        (((alookup (st.add_symbol s1).name_to_scoped s2.name).getD []) ++ [s2.scoped_name])
        = _
    have hprev : alookup (st.add_symbol s1).name_to_scoped s2.name = some [k] := by
      rw [hn2s1, h4, alookup_append_of_none _ _ _ hn, alookup_cons, if_pos rfl]
    rw [hprev, h4, h2, hn2s1]
    exact ainsert_append_last st.name_to_scoped n [k] ([k] ++ [k]) hn
  have hlook : alookup ((st.add_symbol s1).add_symbol s2).symbols k = some s2 := by
    rw [hsym2, alookup_append_of_none _ _ _ hk, alookup_cons, if_pos rfl]
  refine ⟨rfl, hlook, ?_, ?_, ?_, ?_⟩
  · rw [hsym2, List.filter_append]
    have hnil : st.symbols.filter (fun e => decide (e.1 = k)) = [] := by
      rw [List.filter_eq_nil_iff]
      intro e he
      simpa using alookup_ne_of_none st.symbols k hk e he
    rw [hnil]
    simp
  · rw [hn2s2, alookup_append_of_none _ _ _ hn, alookup_cons, if_pos rfl]
  · show OciState.find_by_name _ n = _
    unfold OciState.find_by_name
    rw [hn2s2, alookup_append_of_none _ _ _ hn, alookup_cons, if_pos rfl]
    simp [List.filterMap, hlook]
  · rw [hsym2, List.length_append]
    simp

/-- Witness for C9: the duplicate insertion of `crate::f` into the empty
state (the conclusion instantiated at `stBare`'s ingredients). -/
theorem C9_witness :
    (alookup OciState.empty.symbols ("crate::f") = none
      ∧ alookup OciState.empty.name_to_scoped ("f") = none)
    ∧ (((OciState.empty.add_symbol symA).add_symbol symA2).symbol_count
          = OciState.empty.symbol_count + 2
        ∧ alookup ((OciState.empty.add_symbol symA).add_symbol symA2).symbols
            ("crate::f") = some symA2
        ∧ ((((OciState.empty.add_symbol symA).add_symbol symA2).symbols.filter
              (fun e => e.1 = "crate::f")).length = 1)
        ∧ alookup ((OciState.empty.add_symbol symA).add_symbol symA2).name_to_scoped
            ("f") = some ["crate::f", "crate::f"]
        ∧ ((OciState.empty.add_symbol symA).add_symbol symA2).find_by_name ("f")
            = [symA2, symA2]
        ∧ ((OciState.empty.add_symbol symA).add_symbol symA2).symbols.length
            = OciState.empty.symbols.length + 1) :=
  ⟨⟨rfl, rfl⟩,
    C9_add_symbol_not_idempotent OciState.empty symA symA2 ("crate::f") ("f")
      rfl rfl rfl rfl rfl rfl⟩

/-! ## C1 : clear_file purges everything bound to the file -/

theorem OciState.clear_syms_step_fields (acc : OciState) (s : String) :
    (OciState.clear_syms_step acc s).call_edges = acc.call_edges
    ∧ (OciState.clear_syms_step acc s).imports = acc.imports
    ∧ (OciState.clear_syms_step acc s).file_symbols = acc.file_symbols
    ∧ (OciState.clear_syms_step acc s).file_ids = acc.file_ids := by
  unfold OciState.clear_syms_step
  cases alookup acc.symbols s <;> exact ⟨rfl, rfl, rfl, rfl⟩

theorem clear_syms_fold_fields (syms : List String) :
    ∀ (acc : OciState),
      (syms.foldl OciState.clear_syms_step acc).call_edges = acc.call_edges
      ∧ (syms.foldl OciState.clear_syms_step acc).imports = acc.imports
      ∧ (syms.foldl OciState.clear_syms_step acc).file_symbols = acc.file_symbols
      ∧ (syms.foldl OciState.clear_syms_step acc).file_ids = acc.file_ids := by
  induction syms with
  | nil => exact fun acc => ⟨rfl, rfl, rfl, rfl⟩
  | cons s rest ih =>
      intro acc
      have hstep := OciState.clear_syms_step_fields acc s
      have hrest := ih (OciState.clear_syms_step acc s)
      simp only [List.foldl_cons]
      exact ⟨hrest.1.trans hstep.1, hrest.2.1.trans hstep.2.1,
        hrest.2.2.1.trans hstep.2.2.1, hrest.2.2.2.trans hstep.2.2.2⟩

theorem clear_syms_fold_lookup_some :
    ∀ (syms : List String) (acc : OciState) (k : String) (v : SymbolDef),
      alookup (syms.foldl OciState.clear_syms_step acc).symbols k = some v →
      alookup acc.symbols k = some v
  | [], _, _, _, h => h
  | s :: rest, acc, k, v, h => by
      have h2 := clear_syms_fold_lookup_some rest (OciState.clear_syms_step acc s) k v h
      unfold OciState.clear_syms_step at h2
      revert h2
      cases hs : alookup acc.symbols s with
      | none => exact id
      | some sym =>
          intro h2
          exact alookup_aremove_of_some acc.symbols s k v h2

theorem clear_syms_fold_lookup_none :
    ∀ (syms : List String) (acc : OciState) (k : String), k ∈ syms →
      alookup (syms.foldl OciState.clear_syms_step acc).symbols k = none
  | [], _, _, hk => absurd hk (List.not_mem_nil _)
  | s :: rest, acc, k, hk => by
      simp only [List.foldl_cons]
      rcases List.mem_cons.mp hk with rfl | hmem
      · cases hfin : alookup (rest.foldl OciState.clear_syms_step (OciState.clear_syms_step acc k)).symbols k with
        | none => rfl
        | some v =>
            exfalso
            have hstep := clear_syms_fold_lookup_some rest (OciState.clear_syms_step acc k) k v hfin
            unfold OciState.clear_syms_step at hstep
            revert hstep
            cases hs : alookup acc.symbols k with
            | none =>
                intro hstep
                rw [hs] at hstep
                cases hstep
            | some sym =>
                intro hstep
                rw [alookup_aremove_self acc.symbols k] at hstep
                cases hstep
      · exact clear_syms_fold_lookup_none rest (OciState.clear_syms_step acc s) k hmem

/-- C1 (amended): provided the path has a FileId and every symbol whose
location lies in the file is registered under that FileId in `file_symbols`
(both hold for states the indexer builds, which records exactly the symbols
it adds per file), `clear_file(p)` leaves no symbol located in `p` in the
symbol map, no call edge located in `p` in the edge log, and no imports
entry under the FileId, so no read-side query (`get_symbol`, `find_by_name`,
`find_callers`, `find_callees`) can observe a symbol, edge, or import bound
to `p`. -/
theorem C1_clear_file_purges (st : OciState) (p : String) (fid : Nat)
    (hfid : alookup st.file_ids p = some fid)
    (hreg : ∀ k v, alookup st.symbols k = some v → v.location.file = p →
        k ∈ (alookup st.file_symbols fid).getD []) :
    (∀ k v, alookup (st.clear_file p).symbols k = some v → v.location.file ≠ p)
    ∧ (∀ e ∈ (st.clear_file p).call_edges, e.location.file ≠ p)
    ∧ alookup (st.clear_file p).imports fid = none
    ∧ (∀ k v, (st.clear_file p).get_symbol k = some v → v.location.file ≠ p)
    ∧ (∀ name sym, sym ∈ (st.clear_file p).find_by_name name → sym.location.file ≠ p)
    ∧ (∀ name e, e ∈ (st.clear_file p).find_callers name → e.location.file ≠ p)
    ∧ (∀ c e, e ∈ (st.clear_file p).find_callees c → e.location.file ≠ p) := by
  have hcf : st.clear_file p =
      { ((alookup st.file_symbols fid).getD []).foldl OciState.clear_syms_step st with
        file_symbols := aremove ((((alookup st.file_symbols fid).getD []).foldl
            OciState.clear_syms_step st)).file_symbols fid
        imports := aremove ((((alookup st.file_symbols fid).getD []).foldl
            OciState.clear_syms_step st)).imports fid
        call_edges := ((((alookup st.file_symbols fid).getD []).foldl
            OciState.clear_syms_step st)).call_edges.filter
          (fun e => e.location.file ≠ p) } := by
    unfold OciState.clear_file
    rw [hfid]
  have hsymbols : ∀ k v, alookup (st.clear_file p).symbols k = some v →
      v.location.file ≠ p := by
    intro k v h heq
    rw [hcf] at h
    have hst := clear_syms_fold_lookup_some _ st k v h
    have hin := hreg k v hst heq
    have hnone := clear_syms_fold_lookup_none _ st k hin
    rw [hnone] at h
    cases h
  have hedges : ∀ e ∈ (st.clear_file p).call_edges, e.location.file ≠ p := by
    intro e he
    rw [hcf] at he
    have := List.of_mem_filter he
    simpa using this
  refine ⟨hsymbols, hedges, ?_, ?_, ?_, ?_, ?_⟩
  · rw [hcf]
    exact alookup_aremove_self _ fid
  · exact hsymbols
  · intro name sym hmem
    unfold OciState.find_by_name at hmem
    revert hmem
    cases alookup (st.clear_file p).name_to_scoped name with
    | none => intro hmem; cases hmem
    | some scoped_names =>
        intro hmem
        obtain ⟨a, _, ha⟩ := List.mem_filterMap.mp hmem
        exact hsymbols a sym ha
  · intro name e hmem
    exact hedges e (List.mem_of_mem_filter hmem)
  · intro c e hmem
    exact hedges e (List.mem_of_mem_filter hmem)

/-- Counterexample to C1 as stated over every state: a state holding a
symbol located in `src/a.rs` and a call edge there, but no FileId for the
path (as direct `add_symbol`/`add_call_edge` callers produce), survives
`clear_file` untouched: the symbol and the edge remain observable. -/
theorem C1_counterexample :
    ({ stBare with call_edges := [edgeA] } : OciState).clear_file ("src/a.rs")
        = { stBare with call_edges := [edgeA] }
    ∧ ({ stBare with call_edges := [edgeA] } : OciState).get_symbol ("crate::f")
        = some symA
    ∧ symA.location.file = "src/a.rs"
    ∧ ({ stBare with call_edges := [edgeA] } : OciState).find_by_name ("f") = [symA]
    ∧ edgeA ∈ ({ stBare with call_edges := [edgeA] } : OciState).call_edges
    ∧ edgeA.location.file = "src/a.rs" := by
  refine ⟨rfl, rfl, rfl, rfl, ?_, rfl⟩
  exact List.mem_singleton.mpr rfl

theorem stReg_registered :
    ∀ k v, alookup stReg.symbols k = some v → v.location.file = "src/a.rs" →
      k ∈ (alookup stReg.file_symbols 0).getD [] := by
  intro k v h _hf
  rw [show stReg.symbols = [("crate::f", symA)] from rfl, alookup_cons] at h
  by_cases hk : "crate::f" = k
  · rw [← hk]
    decide
  · rw [if_neg hk] at h
    cases h

/-- Witness for C1 at the consistently registered state `stReg`. -/
theorem C1_witness :
    (alookup stReg.file_ids ("src/a.rs") = some 0
      ∧ (∀ k v, alookup stReg.symbols k = some v → v.location.file = "src/a.rs" →
          k ∈ (alookup stReg.file_symbols 0).getD []))
    ∧ ((∀ k v, alookup (stReg.clear_file ("src/a.rs")).symbols k = some v →
          v.location.file ≠ "src/a.rs")
        ∧ (∀ e ∈ (stReg.clear_file ("src/a.rs")).call_edges,
            e.location.file ≠ "src/a.rs")
        ∧ alookup (stReg.clear_file ("src/a.rs")).imports 0 = none
        ∧ (∀ k v, (stReg.clear_file ("src/a.rs")).get_symbol k = some v →
            v.location.file ≠ "src/a.rs")
        ∧ (∀ name sym, sym ∈ (stReg.clear_file ("src/a.rs")).find_by_name name →
            sym.location.file ≠ "src/a.rs")
        ∧ (∀ name e, e ∈ (stReg.clear_file ("src/a.rs")).find_callers name →
            e.location.file ≠ "src/a.rs")
        ∧ (∀ c e, e ∈ (stReg.clear_file ("src/a.rs")).find_callees c →
            e.location.file ≠ "src/a.rs")) :=
  ⟨⟨rfl, stReg_registered⟩,
    C1_clear_file_purges stReg ("src/a.rs") 0 rfl stReg_registered⟩

/-! ## Tokenizer lemmas (for C3 and C10) -/

theorem pushChunk_mem {chunk t : List Char} (h : t ∈ pushChunk chunk) :
    t = chunk ∧ chunk ≠ [] ∧ chunk.head? ≠ some '_' := by
  match chunk with
  | [] => cases h
  | c :: rest =>
      by_cases hc : c = '_'
      · simp [pushChunk, hc] at h
      · simp [pushChunk, hc] at h
        subst h
        exact ⟨rfl, by simp, by simp [hc]⟩

theorem splitIdentGo_mem :
    ∀ (rest : List Char) (prev : Char) (chunk : List Char) (t : List Char),
      t ∈ splitIdentGo rest prev chunk →
      t ≠ [] ∧ t.head? ≠ some '_' ∧ ∀ c ∈ t, c ∈ chunk ∨ c ∈ rest
  | [], _, chunk, t, h => by
      obtain ⟨rfl, hne, hh⟩ := pushChunk_mem h
      exact ⟨hne, hh, fun c hc => Or.inl hc⟩
  | c :: rest, prev, chunk, t, h => by
      unfold splitIdentGo at h
      by_cases hb : identBoundary prev c = true
      · rw [if_pos hb] at h
        rcases List.mem_append.mp h with h1 | h2
        · obtain ⟨rfl, hne, hh⟩ := pushChunk_mem h1
          exact ⟨hne, hh, fun x hx => Or.inl hx⟩
        · have hrec := splitIdentGo_mem rest c _ t h2
          refine ⟨hrec.1, hrec.2.1, fun x hx => ?_⟩
          rcases hrec.2.2 x hx with hx1 | hx2
          · by_cases hc : c = '_'
            · rw [if_pos hc] at hx1
              cases hx1
            · rw [if_neg hc] at hx1
              have := List.mem_singleton.mp hx1
              subst this
              exact Or.inr (List.mem_cons_self _ _)
          · exact Or.inr (List.mem_cons_of_mem _ hx2)
      · rw [if_neg hb] at h
        have hrec := splitIdentGo_mem rest c (chunk ++ [c]) t h
        refine ⟨hrec.1, hrec.2.1, fun x hx => ?_⟩
        rcases hrec.2.2 x hx with hx1 | hx2
        · rcases List.mem_append.mp hx1 with h3 | h4
          · exact Or.inl h3
          · have := List.mem_singleton.mp h4
            subst this
            exact Or.inr (List.mem_cons_self _ _)
        · exact Or.inr (List.mem_cons_of_mem _ hx2)

theorem splitIdentifierSubs_mem {s t : List Char} (h : t ∈ splitIdentifierSubs s) :
    t ≠ [] ∧ t.head? ≠ some '_' ∧ ∀ c ∈ t, c ∈ s := by
  match s with
  | [] => cases h
  | c0 :: rest =>
      have hrec := splitIdentGo_mem rest c0 [c0] t h
      refine ⟨hrec.1, hrec.2.1, fun x hx => ?_⟩
      rcases hrec.2.2 x hx with h1 | h2
      · have := List.mem_singleton.mp h1
        subst this
        exact List.mem_cons_self _ _
      · exact List.mem_cons_of_mem _ h2

theorem splitIdentifier_mem {s t : List Char} (h : t ∈ splitIdentifier s) :
    t ∈ splitIdentifierSubs s ∨ t = s := by
  unfold splitIdentifier at h
  by_cases hl : (splitIdentifierSubs s).length > 1
  · rw [if_pos hl] at h
    rcases List.mem_append.mp h with h1 | h2
    · exact Or.inl h1
    · exact Or.inr (List.mem_singleton.mp h2)
  · rw [if_neg hl] at h
    exact Or.inl h

theorem splitOnPred_chars :
    ∀ (p : Char → Bool) (l : List Char) (seg : List Char), seg ∈ splitOnPred p l →
      ∀ c ∈ seg, p c = false
  | _, [], seg, h, c, hc => by
      have := List.mem_singleton.mp h
      subst this
      cases hc
  | p, x :: rest, seg, h, c, hc => by
      unfold splitOnPred at h
      revert h
      cases hsp : splitOnPred p rest with
      | nil =>
          intro h
          have := List.mem_singleton.mp h
          subst this
          cases hc
      | cons seg0 segs =>
          intro h
          by_cases hx : p x = true
          · simp only [hx, if_true] at h
            rcases List.mem_cons.mp h with rfl | h2
            · cases hc
            · exact splitOnPred_chars p rest seg (by rw [hsp]; exact h2) c hc
          · simp only [hx, if_false] at h
            rcases List.mem_cons.mp h with rfl | h2
            · rcases List.mem_cons.mp hc with rfl | hc2
              · exact Bool.eq_false_iff.mpr hx
              · exact splitOnPred_chars p rest seg0
                  (by rw [hsp]; exact List.mem_cons_self _ _) c hc2
            · exact splitOnPred_chars p rest seg
                (by rw [hsp]; exact List.mem_cons_of_mem _ h2) c hc

/-! ## C3 : what the tokenizer emits -/

/-- C3 (amended): every token emitted by `tokenize` is nonempty and consists
only of ASCII word characters (alphanumerics and underscore), and the
original compound identifier is also emitted whenever its camel/snake split
yields more than one sub-token.  `tokenize` itself neither lowercases nor
filters by length or digit content: lowercasing happens in
`Bm25Index::add_document` and in `search`, and the ≥ 2 / not-purely-digits
filter only in `extract_identifiers`, which `tokenize` does not apply. -/
theorem C3_tokenize_tokens (text : String) :
    (∀ t ∈ tokenize text, t ≠ "" ∧ t.toList.all isWordChar = true)
    ∧ (∀ seg ∈ (splitOnPred (fun c => !isWordChar c) text.toList).filter
          (fun s => s ≠ []),
        1 < (splitIdentifierSubs seg).length → String.mk seg ∈ tokenize text) := by
  constructor
  · intro t ht
    obtain ⟨l, hl, rfl⟩ := List.mem_map.mp ht
    obtain ⟨lst, hlst, hmem⟩ := List.mem_flatten.mp hl
    obtain ⟨seg, hseg, rfl⟩ := List.mem_map.mp hlst
    have hsegf := List.mem_filter.mp hseg
    have hsegchars : ∀ c ∈ seg, isWordChar c = true := by
      intro c hc
      have := splitOnPred_chars _ text.toList seg hsegf.1 c hc
      simpa using this
    have hprops : l ≠ [] ∧ ∀ c ∈ l, isWordChar c = true := by
      rcases splitIdentifier_mem hmem with hsub | rfl
      · have := splitIdentifierSubs_mem hsub
        exact ⟨this.1, fun c hc => hsegchars c (this.2.2 c hc)⟩
      · exact ⟨by simpa using hsegf.2, hsegchars⟩
    constructor
    · intro hempty
      exact hprops.1 (by simpa [String.ext_iff] using hempty)
    · exact List.all_eq_true.mpr (fun c hc => hprops.2 c (by simpa using hc))
  · intro seg hseg hlen
    refine List.mem_map.mpr ⟨seg, ?_, rfl⟩
    refine List.mem_flatten.mpr ⟨splitIdentifier seg, List.mem_map.mpr ⟨seg, hseg, rfl⟩, ?_⟩
    unfold splitIdentifier
    rw [if_pos hlen]
    exact List.mem_append.mpr (Or.inr (List.mem_singleton.mpr rfl))

/-- Counterexample to C3 as stated: `tokenize` emits the token `Hi`, which
is not lowercase, and the token `7`, which has length 1 and is purely a
digit. -/
theorem C3_counterexample :
    tokenize ("Hi 7") = ["Hi", "7"]
    ∧ "Hi".toList.any Char.isUpper = true
    ∧ "7".length < 2
    ∧ "7".toList.all Char.isDigit = true := by decide

/-- Witness for C3 at a text with a splittable identifier. -/
theorem C3_witness :
    ("hello_world".toList ∈ (splitOnPred (fun c => !isWordChar c)
        ("hello_world" : String).toList).filter (fun s => s ≠ [])
      ∧ 1 < (splitIdentifierSubs ("hello_world".toList)).length)
    ∧ ("hello" ∈ tokenize ("hello_world") → "hello" ≠ ""
        ∧ "hello".toList.all isWordChar = true)
    ∧ String.mk ("hello_world".toList) ∈ tokenize ("hello_world") :=
  ⟨⟨by decide, by decide⟩,
    fun h => (C3_tokenize_tokens ("hello_world")).1 ("hello") h,
    (C3_tokenize_tokens ("hello_world")).2 ("hello_world".toList)
      (by decide) (by decide)⟩

/-! ## C10 : leading underscores produce no tokens -/

theorem splitIdentGo_no_boundary :
    ∀ (rest : List Char) (prev : Char) (chunk : List Char),
      List.Chain' (fun a b => identBoundary a b = false) (prev :: rest) →
      splitIdentGo rest prev chunk = pushChunk (chunk ++ rest)
  | [], _, chunk, _ => by simp [splitIdentGo]
  | c :: rest, prev, chunk, h => by
      obtain ⟨hb, hrest⟩ := List.chain'_cons.mp h
      unfold splitIdentGo
      rw [if_neg (by simp [hb])]
      rw [splitIdentGo_no_boundary rest c (chunk ++ [c]) hrest]
      congr 1
      simp

/-- C10: the identifier splitter never emits a sub-token that begins with an
underscore, and for an input consisting of a leading underscore followed by
characters with no further split boundary, `split_identifier` emits no
tokens at all; in particular `tokenize "_foo" = []`, so a symbol named
`_foo` contributes no identifier token under that name. -/
theorem C10_underscore_tokens :
    (∀ (s t : List Char), t ∈ splitIdentifierSubs s → t.head? ≠ some '_')
    ∧ (∀ rest : List Char,
        List.Chain' (fun a b => identBoundary a b = false) ('_' :: rest) →
        splitIdentifier ('_' :: rest) = [])
    ∧ tokenize ("_foo") = [] := by
  refine ⟨fun s t ht => (splitIdentifierSubs_mem ht).2.1, ?_, by decide⟩
  intro rest hchain
  have hsubs : splitIdentifierSubs ('_' :: rest) = [] := by
    show splitIdentGo rest '_' ['_'] = []
    rw [splitIdentGo_no_boundary rest '_' ['_'] hchain]
    simp [pushChunk]
  unfold splitIdentifier
  rw [hsubs]
  simp

/-- Witness for C10 at the input `_foo`. -/
theorem C10_witness :
    List.Chain' (fun a b => identBoundary a b = false) ('_' :: ['f', 'o', 'o'])
    ∧ splitIdentifier ('_' :: ['f', 'o', 'o']) = [] :=
  have hchain : List.Chain' (fun a b => identBoundary a b = false)
      ('_' :: ['f', 'o', 'o']) := by
    simp only [List.chain'_cons, List.chain'_singleton, and_true]
    exact ⟨by decide, by decide, by decide⟩
  ⟨hchain, C10_underscore_tokens.2.1 ['f', 'o', 'o'] hchain⟩

/-! ## C8 : UTF-8 safe slicing -/

theorem contractDown_le (B : Nat → Bool) : ∀ n, contractDown B n ≤ n
  | 0 => le_refl 0
  | n + 1 => by
      unfold contractDown
      by_cases hb : B (n + 1) = true
      · rw [if_pos hb]
      · rw [if_neg hb]
        exact le_trans (contractDown_le B n) (Nat.le_succ n)

theorem contractDown_boundary (B : Nat → Bool) (hB0 : B 0 = true) :
    ∀ n, B (contractDown B n) = true
  | 0 => hB0
  | n + 1 => by
      unfold contractDown
      by_cases hb : B (n + 1) = true
      · rw [if_pos hb]
        exact hb
      · rw [if_neg hb]
        exact contractDown_boundary B hB0 n

theorem contractDown_maximal (B : Nat → Bool) :
    ∀ n i, contractDown B n < i → i ≤ n → B i = false
  | 0, i, h1, h2 => absurd (lt_of_lt_of_le h1 h2) (lt_irrefl _)
  | n + 1, i, h1, h2 => by
      unfold contractDown at h1
      by_cases hb : B (n + 1) = true
      · rw [if_pos hb] at h1
        omega
      · rw [if_neg hb] at h1
        rcases Nat.lt_or_ge i (n + 1) with hlt | hge
        · exact contractDown_maximal B n i h1 (by omega)
        · have hi : i = n + 1 := by omega
          rw [hi]
          exact Bool.eq_false_iff.mpr hb

theorem expandUpGo_spec (B : Nat → Bool) (len : Nat) (hBlen : B len = true) :
    ∀ (fuel e : Nat), e ≤ len → len - e ≤ fuel →
      e ≤ expandUpGo B len e fuel
      ∧ expandUpGo B len e fuel ≤ len
      ∧ B (expandUpGo B len e fuel) = true
      ∧ (∀ i, e ≤ i → i < expandUpGo B len e fuel → B i = false)
  | 0, e, he, hf => by
      have he2 : e = len := by omega
      subst he2
      exact ⟨le_refl _, le_refl _, hBlen,
        fun i h1 h2 => absurd (lt_of_le_of_lt h1 h2) (lt_irrefl _)⟩
  | fuel + 1, e, he, hf => by
      unfold expandUpGo
      by_cases hc : (decide (e < len) && !B e) = true
      · simp only [Bool.and_eq_true, decide_eq_true_eq, Bool.not_eq_true'] at hc
        rw [if_pos (by simp [hc.1, hc.2])]
        have hrec := expandUpGo_spec B len hBlen fuel (e + 1) (by omega) (by omega)
        refine ⟨le_trans (Nat.le_succ e) hrec.1, hrec.2.1, hrec.2.2.1, ?_⟩
        intro i h1 h2
        rcases Nat.eq_or_lt_of_le h1 with rfl | hgt
        · exact hc.2
        · exact hrec.2.2.2 i hgt h2
      · rw [if_neg hc]
        simp only [Bool.and_eq_true, decide_eq_true_eq, Bool.not_eq_true',
          not_and] at hc
        refine ⟨le_refl _, he, ?_, fun i h1 h2 => absurd (lt_of_le_of_lt h1 h2) (lt_irrefl _)⟩
        rcases Nat.eq_or_lt_of_le he with rfl | hlt
        · exact hBlen
        · have := hc hlt
          simpa using this

theorem expandUp_spec (B : Nat → Bool) (len e : Nat) (hBlen : B len = true)
    (he : e ≤ len) :
    e ≤ expandUp B len e ∧ expandUp B len e ≤ len ∧ B (expandUp B len e) = true
    ∧ (∀ i, e ≤ i → i < expandUp B len e → B i = false) :=
  expandUpGo_spec B len hBlen (len - e) e he (le_refl _)

/-- C8: for every boundary structure and requested byte range, `slice_utf8`
never panics: it contracts the start down and expands the end up to the
nearest character boundaries (clamping both to the string length), so any
returned range has character boundaries at both ends with `s < e ≤ len`
(the precondition under which Rust's `&contents[s..e]` cannot panic), and
whenever the requested range lies within the string the returned range
contains it; the skipped positions are exactly non-boundaries, so the chosen
boundaries are the nearest ones. -/
theorem C8_sliceUtf8_safe (B : Nat → Bool) (len start stop : Nat)
    (hB0 : B 0 = true) (hBlen : B len = true) :
    (∀ s e, sliceUtf8 B len start stop = some (s, e) →
        B s = true ∧ B e = true ∧ s < e ∧ s ≤ len ∧ e ≤ len)
    ∧ (start ≤ stop → stop ≤ len →
        contractDown B (min start len) ≤ start
        ∧ stop ≤ expandUp B len (min stop len))
    ∧ (start < stop → stop ≤ len →
        ∃ s e, sliceUtf8 B len start stop = some (s, e) ∧ s ≤ start ∧ stop ≤ e)
    ∧ (∀ i, contractDown B (min start len) < i → i ≤ min start len → B i = false)
    ∧ (∀ i, min stop len ≤ i → i < expandUp B len (min stop len) → B i = false) := by
  have hexp := expandUp_spec B len (min stop len) hBlen (min_le_right _ _)
  have hcon_le : contractDown B (min start len) ≤ min start len := contractDown_le B _
  refine ⟨?_, ?_, ?_, contractDown_maximal B _, hexp.2.2.2⟩
  · intro s e h
    unfold sliceUtf8 at h
    by_cases hse : contractDown B (min start len) ≥ expandUp B len (min stop len)
    · rw [if_pos hse] at h
      cases h
    · rw [if_neg hse] at h
      obtain ⟨rfl, rfl⟩ := Prod.mk.injEq _ _ _ _ ▸ Option.some.injEq _ _ ▸ h
      refine ⟨contractDown_boundary B hB0 _, hexp.2.2.1, by omega,
        le_trans hcon_le (min_le_right _ _), hexp.2.1⟩
  · intro h1 h2
    constructor
    · exact le_trans hcon_le (min_le_left _ _)
    · have : min stop len = stop := min_eq_left h2
      rw [this] at hexp ⊢
      exact hexp.1
  · intro h1 h2
    have hstartlen : start ≤ len := le_trans (le_of_lt h1) h2
    have hmins : min start len = start := min_eq_left hstartlen
    have hmine : min stop len = stop := min_eq_left h2
    have hlt : contractDown B (min start len) < expandUp B len (min stop len) := by
      have ha : contractDown B (min start len) ≤ start := by
        rw [hmins]; exact contractDown_le B start
      have hb : stop ≤ expandUp B len (min stop len) := by
        rw [hmine]; exact (expandUp_spec B len stop hBlen h2).1
      omega
    refine ⟨contractDown B (min start len), expandUp B len (min stop len), ?_, ?_, ?_⟩
    · unfold sliceUtf8
      rw [if_neg (by omega)]
    · rw [hmins]
      exact contractDown_le B start
    · rw [hmine] at hexp ⊢
      exact hexp.1

/-- Witness for C8 on the boundary structure of the string "aé" (byte widths
1 and 2), with the requested range starting inside the two-byte character. -/
theorem C8_witness :
    (bAe 0 = true ∧ bAe 3 = true)
    ∧ ((∀ s e, sliceUtf8 bAe 3 2 3 = some (s, e) →
          bAe s = true ∧ bAe e = true ∧ s < e ∧ s ≤ 3 ∧ e ≤ 3)
        ∧ ((2 : Nat) ≤ 3 → 3 ≤ 3 →
            contractDown bAe (min 2 3) ≤ 2 ∧ 3 ≤ expandUp bAe 3 (min 3 3))
        ∧ ((2 : Nat) < 3 → 3 ≤ 3 →
            ∃ s e, sliceUtf8 bAe 3 2 3 = some (s, e) ∧ s ≤ 2 ∧ 3 ≤ e)
        ∧ (∀ i, contractDown bAe (min 2 3) < i → i ≤ min 2 3 → bAe i = false)
        ∧ (∀ i, min 3 3 ≤ i → i < expandUp bAe 3 (min 3 3) → bAe i = false)) :=
  ⟨⟨rfl, rfl⟩, C8_sliceUtf8_safe bAe 3 2 3 rfl rfl⟩

/-! ## C5 : dead-code analysis never reports entry points or their direct callees -/

theorem alookup_mem {α β : Type} [DecidableEq α] :
    ∀ {l : List (α × β)} {k : α} {v : β}, alookup l k = some v → (k, v) ∈ l
  | [], _, _, h => by cases h
  | (k0, v0) :: rest, k, v, h => by
      rw [alookup_cons] at h
      by_cases hk : k0 = k
      · rw [if_pos hk] at h
        obtain rfl := Option.some.injEq _ _ ▸ h
        subst hk
        exact List.mem_cons_self _ _
      · rw [if_neg hk] at h
        exact List.mem_cons_of_mem _ (alookup_mem h)

theorem mem_insertNew_self (l : List String) (y : String) : y ∈ insertNew l y := by
  unfold insertNew
  by_cases hy : y ∈ l
  · rw [if_pos hy]
    exact hy
  · rw [if_neg hy]
    exact List.mem_append.mpr (Or.inr (List.mem_singleton.mpr rfl))

theorem mem_insertNew_of_mem {l : List String} {x : String} (y : String) (h : x ∈ l) :
    x ∈ insertNew l y := by
  unfold insertNew
  by_cases hy : y ∈ l
  · rw [if_pos hy]
    exact h
  · rw [if_neg hy]
    exact List.mem_append.mpr (Or.inl h)

theorem mem_foldl_insertNew_of_mem :
    ∀ (ys l : List String) (x : String), x ∈ l → x ∈ ys.foldl insertNew l
  | [], _, _, h => h
  | y :: ys, l, x, h =>
      mem_foldl_insertNew_of_mem ys (insertNew l y) x (mem_insertNew_of_mem y h)

theorem mem_foldl_insertNew_of_mem_list :
    ∀ (ys l : List String) (x : String), x ∈ ys → x ∈ ys.foldl insertNew l
  | [], _, x, h => absurd h (List.not_mem_nil x)
  | y :: ys, l, x, h => by
      rcases List.mem_cons.mp h with rfl | h2
      · exact mem_foldl_insertNew_of_mem ys _ x (mem_insertNew_self l x)
      · exact mem_foldl_insertNew_of_mem_list ys _ x h2

theorem mem_reachStepFoldPres (st : OciState) :
    ∀ (ys l : List String) (x : String), x ∈ l →
      x ∈ ys.foldl (fun acc z => (reachSuccs st z).foldl insertNew acc) l
  | [], _, _, h => h
  | _y :: ys, l, x, h =>
      mem_reachStepFoldPres st ys _ x (mem_foldl_insertNew_of_mem _ l x h)

theorem mem_reachStepFold (st : OciState) :
    ∀ (ys l : List String) (x y : String), x ∈ ys → y ∈ reachSuccs st x →
      y ∈ ys.foldl (fun acc z => (reachSuccs st z).foldl insertNew acc) l
  | [], _, _, _, hx, _ => absurd hx (List.not_mem_nil _)
  | z :: ys, l, x, y, hx, hy => by
      rcases List.mem_cons.mp hx with rfl | h2
      · exact mem_reachStepFoldPres st ys _ y (mem_foldl_insertNew_of_mem_list _ l y hy)
      · exact mem_reachStepFold st ys _ x y h2 hy

theorem subset_reachStep (st : OciState) (reach : List String) :
    ∀ x ∈ reach, x ∈ reachStep st reach :=
  fun x hx => mem_reachStepFoldPres st reach reach x hx

theorem mem_reachStep_of_succ (st : OciState) (reach : List String) (x y : String)
    (hx : x ∈ reach) (hy : y ∈ reachSuccs st x) : y ∈ reachStep st reach :=
  mem_reachStepFold st reach reach x y hx hy

theorem subset_iterate_reachStep (st : OciState) :
    ∀ (n : Nat) (l : List String) (x : String), x ∈ l → x ∈ (reachStep st)^[n] l
  | 0, _, _, h => h
  | n + 1, l, x, h => by
      rw [Function.iterate_succ_apply]
      exact subset_iterate_reachStep st n _ x (subset_reachStep st l x h)

theorem entry_mem_reachable (st : OciState) (entries : List String) (x : String)
    (hx : x ∈ entries) : x ∈ compute_reachable st entries :=
  subset_iterate_reachStep st _ _ x (mem_foldl_insertNew_of_mem_list entries [] x hx)

theorem succ_of_entry_mem_reachable (st : OciState) (entries : List String)
    (x y : String) (hx : x ∈ entries) (hy : y ∈ reachSuccs st x) :
    y ∈ compute_reachable st entries := by
  unfold compute_reachable
  have h1 : x ∈ entries.foldl insertNew [] :=
    mem_foldl_insertNew_of_mem_list entries [] x hx
  obtain ⟨m, hm⟩ : ∃ m, 2 * st.symbols.length + 2 = m + 1 :=
    ⟨2 * st.symbols.length + 1, rfl⟩
  rw [hm, Function.iterate_succ_apply]
  exact subset_iterate_reachStep st m _ y
    (mem_reachStep_of_succ st _ x y h1 hy)

theorem not_mem_dead_of_reachable (st : OciState) (reachable : List String)
    (k : String) (hk : k ∈ reachable) : k ∉ find_dead_symbols st reachable := by
  intro hmem
  unfold find_dead_symbols at hmem
  obtain ⟨e, he, heq⟩ := List.mem_map.mp hmem
  have hpred := of_decide_eq_true (List.mem_filter.mp he).2
  rw [heq] at hpred
  exact hpred.1 (by simpa using hk)

theorem nameIndexed_of_entries (st : OciState)
    (h : ∀ e ∈ st.symbols, e.2.scoped_name = e.1
        ∧ e.1 ∈ (alookup st.name_to_scoped e.2.name).getD []) :
    NameIndexed st := fun k v hk => h (k, v) (alookup_mem hk)

theorem alookup_ainsert_self {α β : Type} [DecidableEq α] :
    ∀ (l : List (α × β)) (k : α) (v : β), alookup (ainsert l k v) k = some v
  | [], k, _ => by rw [show ainsert ([] : List (α × β)) k _ = [(k, _)] from rfl,
      alookup_cons, if_pos rfl]
  | (k0, v0) :: rest, k, v => by
      by_cases hk : k0 = k
      · show alookup (if k0 = k then _ else _) k = _
        rw [if_pos hk, alookup_cons, if_pos rfl]
      · show alookup (if k0 = k then _ else _) k = _
        rw [if_neg hk, alookup_cons, if_neg hk]
        exact alookup_ainsert_self rest k v

theorem alookup_ainsert_ne {α β : Type} [DecidableEq α] :
    ∀ (l : List (α × β)) (k j : α) (v : β), j ≠ k →
      alookup (ainsert l k v) j = alookup l j
  | [], k, j, _, hj => by
      rw [show ainsert ([] : List (α × β)) k _ = [(k, _)] from rfl,
        alookup_cons, if_neg (fun h => hj h.symm)]
  | (k0, v0) :: rest, k, j, v, hj => by
      by_cases hk : k0 = k
      · show alookup (if k0 = k then _ else _) j = _
        rw [if_pos hk, alookup_cons, alookup_cons]
        rw [if_neg (fun h => hj h.symm), if_neg (by rw [hk]; exact fun h => hj h.symm)]
      · show alookup (if k0 = k then _ else _) j = _
        rw [if_neg hk, alookup_cons, alookup_cons]
        by_cases hkj : k0 = j
        · rw [if_pos hkj, if_pos hkj]
        · rw [if_neg hkj, if_neg hkj]
          exact alookup_ainsert_ne rest k j v hj

theorem nameIndexed_empty : NameIndexed OciState.empty := fun _k _v h => by cases h

/-- `add_symbol` preserves the name-index consistency invariant, so it holds
in every state built by the write API. -/
theorem nameIndexed_add_symbol (st : OciState) (s : SymbolDef) (h : NameIndexed st) :
    NameIndexed (st.add_symbol s) := by
  intro k v hk
  have hsym : (st.add_symbol s).symbols = ainsert st.symbols s.scoped_name s := rfl
  have hn2s : (st.add_symbol s).name_to_scoped
      = ainsert st.name_to_scoped s.name
          ((alookup st.name_to_scoped s.name).getD [] ++ [s.scoped_name]) := rfl
  rw [hsym] at hk
  by_cases hke : k = s.scoped_name
  · subst hke
    rw [alookup_ainsert_self] at hk
    obtain rfl := Option.some.injEq _ _ ▸ hk
    refine ⟨rfl, ?_⟩
    rw [hn2s, alookup_ainsert_self]
    exact List.mem_append.mpr (Or.inr (List.mem_singleton.mpr rfl))
  · rw [alookup_ainsert_ne st.symbols s.scoped_name k s hke] at hk
    obtain ⟨hsc, hidx⟩ := h k v hk
    refine ⟨hsc, ?_⟩
    rw [hn2s]
    by_cases hname : v.name = s.name
    · rw [hname, alookup_ainsert_self]
      refine List.mem_append.mpr (Or.inl ?_)
      rw [← hname]
      exact hidx
    · rw [alookup_ainsert_ne st.name_to_scoped s.name v.name _ hname]
      exact hidx

/-- C5: in every dead-code report over a consistently indexed state, no
entry point appears in `dead_symbols`, and no symbol whose simple name
equals the callee name of a call edge whose caller is an entry point appears
in `dead_symbols` (such symbols are inserted into the reachable set when the
entry point is expanded). -/
theorem C5_dead_code_entry_points (st : OciState) (hcons : NameIndexed st) :
    (∀ e ∈ (analyze st).entry_points, e ∉ (analyze st).dead_symbols)
    ∧ (∀ edge ∈ st.call_edges, edge.caller ∈ (analyze st).entry_points →
        ∀ k v, alookup st.symbols k = some v → v.name = edge.callee_name →
          k ∉ (analyze st).dead_symbols) := by
  have hreport : (analyze st).entry_points = identify_entry_points st := rfl
  have hdead : (analyze st).dead_symbols
      = find_dead_symbols st (compute_reachable st (identify_entry_points st)) := rfl
  constructor
  · intro e he
    rw [hreport] at he
    rw [hdead]
    exact not_mem_dead_of_reachable st _ e (entry_mem_reachable st _ e he)
  · intro edge hedge hcaller k v hk hname
    rw [hreport] at hcaller
    rw [hdead]
    have hscoped : v.scoped_name = k := (hcons k v hk).1
    have hidx : k ∈ (alookup st.name_to_scoped v.name).getD [] := (hcons k v hk).2
    have hsucc : k ∈ reachSuccs st edge.caller := by
      unfold reachSuccs
      refine List.mem_append.mpr (Or.inl ?_)
      refine List.mem_flatten.mpr ⟨(st.find_by_name edge.callee_name).map
        (fun s => s.scoped_name), ?_, ?_⟩
      · refine List.mem_map.mpr ⟨edge, ?_, rfl⟩
        unfold OciState.find_callees
        exact List.mem_filter.mpr ⟨hedge, by simp⟩
      · refine List.mem_map.mpr ⟨v, ?_, hscoped⟩
        unfold OciState.find_by_name
        revert hidx
        cases hlook : alookup st.name_to_scoped v.name with
        | none =>
            intro hidx
            simp at hidx
        | some lst =>
            intro hidx
            rw [← hname, hlook]
            exact List.mem_filterMap.mpr ⟨k, by simpa using hidx, hk⟩
    exact not_mem_dead_of_reachable st _ k
      (succ_of_entry_mem_reachable st _ edge.caller k hcaller hsucc)

/-- Witness for C5 at the three-symbol scenario state (main calls helper;
dead is uncalled): the analysis is evaluated concretely and the theorem
applied. -/
theorem C5_witness :
    NameIndexed stDead
    ∧ (analyze stDead).entry_points = ["crate::main"]
    ∧ (analyze stDead).dead_symbols = ["crate::dead"]
    ∧ ((∀ e ∈ (analyze stDead).entry_points, e ∉ (analyze stDead).dead_symbols)
        ∧ (∀ edge ∈ stDead.call_edges,
            edge.caller ∈ (analyze stDead).entry_points →
            ∀ k v, alookup stDead.symbols k = some v →
              v.name = edge.callee_name →
              k ∉ (analyze stDead).dead_symbols)) :=
  have h : NameIndexed stDead := nameIndexed_of_entries stDead (by decide)
  ⟨h, by decide, by decide, C5_dead_code_entry_points stDead h⟩

/-! ## C6 : import resolution -/

theorem findIdx?_go_spec {α : Type} (p : α → Bool) :
    ∀ (l : List α) (s i : Nat), List.findIdx? p l s = some i →
      s ≤ i ∧ ∃ a, l[i - s]? = some a ∧ p a = true
        ∧ ∀ j, j < i - s → ∀ b, l[j]? = some b → p b = false
  | [], s, i, h => by
      rw [List.findIdx?_nil] at h
      cases h
  | x :: xs, s, i, h => by
      rw [List.findIdx?_cons] at h
      by_cases hp : p x = true
      · rw [if_pos hp] at h
        obtain rfl := (Option.some.injEq _ _).mp h
        refine ⟨le_refl _, x, by simp, hp, fun j hj b _ => absurd hj (by omega)⟩
      · rw [if_neg hp] at h
        obtain ⟨hle, a, ha, hpa, hmin⟩ := findIdx?_go_spec p xs (s + 1) i h
        refine ⟨by omega, a, ?_, hpa, ?_⟩
        · have hshift : i - s = (i - (s + 1)) + 1 := by omega
          rw [hshift]
          simpa using ha
        · intro j hj b hb
          cases j with
          | zero =>
              have hbx : b = x := by
                simp only [List.getElem?_cons_zero, Option.some.injEq] at hb
                exact hb.symm
              rw [hbx]
              exact Bool.eq_false_iff.mpr hp
          | succ j2 =>
              have hj2 : j2 < i - (s + 1) := by omega
              exact hmin j2 hj2 b (by simpa using hb)

theorem findIdx?_some_spec {α : Type} (p : α → Bool) (l : List α) (i : Nat)
    (h : l.findIdx? p = some i) :
    ∃ a, l[i]? = some a ∧ p a = true
      ∧ ∀ j, j < i → ∀ b, l[j]? = some b → p b = false := by
  obtain ⟨_, a, ha, hpa, hmin⟩ := findIdx?_go_spec p l 0 i h
  simp only [Nat.sub_zero] at ha hmin
  exact ⟨a, ha, hpa, hmin⟩

/-- Counterexample to C6: on the import path `foo::bar`, with nodes in node
order crate `zzz`, file `src/oo.rs`, module `bar`, the code resolves to the
file node (index 1) because the stem `oo` is a *substring* of the path,
although `oo` is not a *segment*; the claim's segment-matching with
module-before-file-stem preference would pick the module node (index 2). -/
theorem C6_counterexample :
    resolve_import_target nodesC6 ("foo::bar") = some 1
    ∧ nodesC6[1]? = some (TopoNode.file ("src/oo.rs"))
    ∧ pathSegments ("foo::bar") = ["foo", "bar"]
    ∧ fileStem ("src/oo.rs") = some ("oo")
    ∧ ("oo" : String) ∉ pathSegments ("foo::bar")
    ∧ nodesC6[2]? = some (TopoNode.module ("bar"))
    ∧ spec_resolve_import_target nodesC6 ("foo::bar") = some 2
    ∧ ¬ resolve_import_target nodesC6 ("foo::bar")
        = spec_resolve_import_target nodesC6 ("foo::bar") := by decide

/-- C6 (amended): for every import, the topology builder adds an Imports
edge from the importing-file node to the *first node in node order* that
matches the import path, where a crate node matches when the path starts
with the crate name, a module node when the path contains the module name
as a substring, and a file node when the path contains the file stem as a
substring; imports matching no node produce no edge, and the produced edge
set is exactly the resolvable imports. -/
theorem C6_import_edges (nodes : List TopoNode) (imports : List (Nat × ImportInfo)) :
    (∀ path i, resolve_import_target nodes path = some i →
        ∃ n, nodes[i]? = some n ∧ nodeMatches path n = true
          ∧ ∀ j, j < i → ∀ m, nodes[j]? = some m → nodeMatches path m = false)
    ∧ (∀ path, resolve_import_target nodes path = none →
        ∀ n ∈ nodes, nodeMatches path n = false)
    ∧ (∀ src t p g, (src, t, p, g) ∈ build_import_edges nodes imports ↔
        ∃ info, (src, info) ∈ imports ∧ info.path = p ∧ info.is_glob = g
          ∧ resolve_import_target nodes p = some t) := by
  refine ⟨fun path i h => findIdx?_some_spec _ nodes i h, ?_, ?_⟩
  · intro path h n hn
    exact List.findIdx?_eq_none_iff.mp h n hn
  · intro src t p g
    constructor
    · intro hmem
      obtain ⟨si, hsi, hmap⟩ := List.mem_filterMap.mp hmem
      revert hmap
      cases hres : resolve_import_target nodes si.2.path with
      | none => intro hmap; cases hmap
      | some t0 =>
          intro hmap
          simp only [Option.map_some', Option.some.injEq, Prod.mk.injEq] at hmap
          obtain ⟨h1, h2, h3, h4⟩ := hmap
          refine ⟨si.2, ?_, h3, h4, ?_⟩
          · rw [← h1]
            exact hsi
          · rw [← h3, hres, h2]
    · rintro ⟨info, hin, hp, hg, hres⟩
      refine List.mem_filterMap.mpr ⟨(src, info), hin, ?_⟩
      show (resolve_import_target nodes info.path).map _ = _
      rw [hp, hres, Option.map_some']
      show some (src, t, p, info.is_glob) = some (src, t, p, g)
      rw [hg]

/-- Witness for C6: the amended resolution applied at the counterexample
nodes, with the resolution hypothesis discharged concretely. -/
theorem C6_witness :
    ∃ n, nodesC6[1]? = some n ∧ nodeMatches ("foo::bar") n = true
      ∧ ∀ j, j < 1 → ∀ m, nodesC6[j]? = some m →
          nodeMatches ("foo::bar") m = false :=
  (C6_import_edges nodesC6 []).1 ("foo::bar") 1 (by decide)

/-! ## C4 : rebuild_bm25 never populates the doc and string-literal fields -/

theorem mem_ainsert {α β : Type} [DecidableEq α] :
    ∀ (l : List (α × β)) (k : α) (v : β) (e : α × β),
      e ∈ ainsert l k v → e = (k, v) ∨ e ∈ l
  | [], k, v, e, h => by
      rw [show ainsert ([] : List (α × β)) k v = [(k, v)] from rfl] at h
      exact Or.inl (List.mem_singleton.mp h)
  | (k0, v0) :: rest, k, v, e, h => by
      by_cases hk : k0 = k
      · rw [show ainsert ((k0, v0) :: rest) k v = (k, v) :: rest by
            simp [ainsert, hk]] at h
        rcases List.mem_cons.mp h with rfl | h2
        · exact Or.inl rfl
        · exact Or.inr (List.mem_cons_of_mem _ h2)
      · rw [show ainsert ((k0, v0) :: rest) k v = (k0, v0) :: ainsert rest k v by
            simp [ainsert, hk]] at h
        rcases List.mem_cons.mp h with rfl | h2
        · exact Or.inr (List.mem_cons_self _ _)
        · rcases mem_ainsert rest k v e h2 with h3 | h4
          · exact Or.inl h3
          · exact Or.inr (List.mem_cons_of_mem _ h4)

theorem Tf5_inc_doc (t : Tf5) (f : Field) (hf : f ≠ Field.doc) :
    (t.inc f).doc = t.doc := by
  cases f <;> first | rfl | exact absurd rfl hf

theorem Tf5_inc_string_lit (t : Tf5) (f : Field) (hf : f ≠ Field.stringLit) :
    (t.inc f).string_lit = t.string_lit := by
  cases f <;> first | rfl | exact absurd rfl hf

theorem addToken_preserves (doc_id : Nat) (acc : List (String × List Posting) × Tf5)
    (field : Field) (token : String)
    (hf : field ≠ Field.doc ∧ field ≠ Field.stringLit)
    (hinv : InvDocStrZero acc.1)
    (hlen : acc.2.doc = 0 ∧ acc.2.string_lit = 0) :
    InvDocStrZero (addToken doc_id acc field token).1
    ∧ (addToken doc_id acc field token).2.doc = 0
    ∧ (addToken doc_id acc field token).2.string_lit = 0 := by
  unfold addToken
  by_cases ht : token = ""
  · rw [if_pos ht]
    exact ⟨hinv, hlen.1, hlen.2⟩
  · rw [if_neg ht]
    refine ⟨?_, ?_, ?_⟩
    · intro ts hts pt hpt
      have hold : ∀ pt0 ∈ (alookup acc.1 (toLowerAscii token)).getD [],
          pt0.tf_by_field.doc = 0 ∧ pt0.tf_by_field.string_lit = 0 := by
        intro pt0 hpt0
        revert hpt0
        cases hl : alookup acc.1 (toLowerAscii token) with
        | none => intro hpt0; cases hpt0
        | some lst =>
            intro hpt0
            exact hinv (toLowerAscii token, lst) (alookup_mem hl) pt0 (by simpa using hpt0)
      rcases mem_ainsert _ _ _ ts hts with rfl | hts2
      · -- the freshly inserted postings list
        revert hpt
        show pt ∈ (match ((alookup acc.1 (toLowerAscii token)).getD []).getLast? with
            | some last => _ | none => _) → _
        cases hlast : ((alookup acc.1 (toLowerAscii token)).getD []).getLast? with
        | some last =>
            intro hpt0
            have hpt : pt ∈ (if last.doc_id = doc_id then
                ((alookup acc.1 (toLowerAscii token)).getD []).dropLast
                  ++ [{ last with tf_by_field := last.tf_by_field.inc field }]
              else (alookup acc.1 (toLowerAscii token)).getD []
                  ++ [(⟨doc_id, Tf5.one field⟩ : Posting)]) := hpt0
            by_cases hid : last.doc_id = doc_id
            · rw [if_pos hid] at hpt
              rcases List.mem_append.mp hpt with h1 | h2
              · exact hold _ (List.dropLast_subset _ h1)
              · have hplast := hold last (List.mem_of_mem_getLast? (Option.mem_def.mpr hlast))
                have := List.mem_singleton.mp h2
                subst this
                constructor
                · rw [show ({ last with tf_by_field := last.tf_by_field.inc field }
                        : Posting).tf_by_field = last.tf_by_field.inc field from rfl,
                    Tf5_inc_doc _ _ hf.1]
                  exact hplast.1
                · rw [show ({ last with tf_by_field := last.tf_by_field.inc field }
                        : Posting).tf_by_field = last.tf_by_field.inc field from rfl,
                    Tf5_inc_string_lit _ _ hf.2]
                  exact hplast.2
            · rw [if_neg hid] at hpt
              rcases List.mem_append.mp hpt with h1 | h2
              · exact hold _ h1
              · have := List.mem_singleton.mp h2
                subst this
                exact ⟨by rw [show (⟨doc_id, Tf5.one field⟩ : Posting).tf_by_field
                        = Tf5.one field from rfl, Tf5.one, Tf5_inc_doc _ _ hf.1],
                       by rw [show (⟨doc_id, Tf5.one field⟩ : Posting).tf_by_field
                        = Tf5.one field from rfl, Tf5.one, Tf5_inc_string_lit _ _ hf.2]⟩
        | none =>
            intro hpt0
            have hpt : pt ∈ (alookup acc.1 (toLowerAscii token)).getD []
                ++ [(⟨doc_id, Tf5.one field⟩ : Posting)] := hpt0
            rcases List.mem_append.mp hpt with h1 | h2
            · exact hold _ h1
            · have := List.mem_singleton.mp h2
              subst this
              exact ⟨by rw [show (⟨doc_id, Tf5.one field⟩ : Posting).tf_by_field
                      = Tf5.one field from rfl, Tf5.one, Tf5_inc_doc _ _ hf.1],
                     by rw [show (⟨doc_id, Tf5.one field⟩ : Posting).tf_by_field
                      = Tf5.one field from rfl, Tf5.one, Tf5_inc_string_lit _ _ hf.2]⟩
      · exact hinv ts hts2 pt hpt
    · rw [show ((acc.1, acc.2) : _ × Tf5).2 = acc.2 from rfl] at *
      rw [show (acc.2.inc field).doc = acc.2.doc from Tf5_inc_doc _ _ hf.1]
      exact hlen.1
    · rw [show (acc.2.inc field).string_lit = acc.2.string_lit from
        Tf5_inc_string_lit _ _ hf.2]
      exact hlen.2

theorem addTokens_fold_preserves :
    ∀ (fts : List (Field × String)) (doc_id : Nat)
      (acc : List (String × List Posting) × Tf5),
      (∀ ft ∈ fts, ft.1 ≠ Field.doc ∧ ft.1 ≠ Field.stringLit) →
      InvDocStrZero acc.1 → acc.2.doc = 0 ∧ acc.2.string_lit = 0 →
      InvDocStrZero ((fts.foldl (fun a ft => addToken doc_id a ft.1 ft.2)) acc).1
      ∧ ((fts.foldl (fun a ft => addToken doc_id a ft.1 ft.2)) acc).2.doc = 0
      ∧ ((fts.foldl (fun a ft => addToken doc_id a ft.1 ft.2)) acc).2.string_lit = 0
  | [], _, _, _, hinv, hlen => ⟨hinv, hlen.1, hlen.2⟩
  | ft :: fts, doc_id, acc, hfts, hinv, hlen => by
      have hstep := addToken_preserves doc_id acc ft.1 ft.2
        (hfts ft (List.mem_cons_self _ _)) hinv hlen
      exact addTokens_fold_preserves fts doc_id _
        (fun f hf => hfts f (List.mem_cons_of_mem _ hf))
        hstep.1 ⟨hstep.2.1, hstep.2.2⟩

theorem add_document_no_doc_string (idx : Bm25Index) (symbol : Nat)
    (pt it : List String) (code_text : String)
    (hinv : InvDocStrZero idx.inv)
    (hdocs : ∀ d ∈ idx.docs, d.len_by_field.doc = 0 ∧ d.len_by_field.string_lit = 0) :
    InvDocStrZero (idx.add_document symbol pt it [] [] code_text).inv
    ∧ ∀ d ∈ (idx.add_document symbol pt it [] [] code_text).docs,
        d.len_by_field.doc = 0 ∧ d.len_by_field.string_lit = 0 := by
  have hfields : ∀ ft ∈ (pt.map (fun t => (Field.path, t))
      ++ it.map (fun t => (Field.ident, t))
      ++ ([] : List String).map (fun t => (Field.doc, t))
      ++ ([] : List String).map (fun t => (Field.stringLit, t))
      ++ (tokenize code_text).map (fun t => (Field.code, t))),
      ft.1 ≠ Field.doc ∧ ft.1 ≠ Field.stringLit := by
    intro ft hft
    rcases List.mem_append.mp hft with hft | hcode
    · rcases List.mem_append.mp hft with hft | hs
      · rcases List.mem_append.mp hft with hft | hd
        · rcases List.mem_append.mp hft with hp | hi
          · obtain ⟨t, _, rfl⟩ := List.mem_map.mp hp
            exact ⟨by simp, by simp⟩
          · obtain ⟨t, _, rfl⟩ := List.mem_map.mp hi
            exact ⟨by simp, by simp⟩
        · cases hd
      · cases hs
    · obtain ⟨t, _, rfl⟩ := List.mem_map.mp hcode
      exact ⟨by simp, by simp⟩
  have hfold := addTokens_fold_preserves _ idx.docs.length (idx.inv, {})
    hfields hinv ⟨rfl, rfl⟩
  refine ⟨hfold.1, ?_⟩
  intro d hd
  rcases List.mem_append.mp hd with hold | hnew
  · exact hdocs d hold
  · have := List.mem_singleton.mp hnew
    subst this
    exact ⟨hfold.2.1, hfold.2.2⟩

/-- C4 (amended): `rebuild_bm25` passes empty doc-comment and string-literal
token streams to `add_document` (`query.rs` lines 270-277), so in the
rebuilt index every document has zero length in the doc and string-literal
fields and every posting has zero term frequency there; doc comments and
string literals reach the index only through the code field via
`indexed_text`.  (`extract_doc_comments` and `extract_string_literals` exist
in `search/bm25.rs` but `rebuild_bm25` does not call them; the
string-literal scanner would also keep only literals *shorter than* 200
bytes, not "200 or fewer".) -/
theorem C4_rebuild_no_doc_string_fields (docs : List SearchDoc) :
    (∀ d ∈ (rebuild_bm25 docs).docs,
        d.len_by_field.doc = 0 ∧ d.len_by_field.string_lit = 0)
    ∧ InvDocStrZero (rebuild_bm25 docs).inv := by
  have hfold : ∀ (ds : List SearchDoc) (acc : Bm25Index × Nat),
      InvDocStrZero acc.1.inv →
      (∀ d ∈ acc.1.docs, d.len_by_field.doc = 0 ∧ d.len_by_field.string_lit = 0) →
      InvDocStrZero (ds.foldl (fun (a : Bm25Index × Nat) doc =>
          (a.1.add_document a.2 (path_tokens doc.file) (tokenize doc.symbol) [] []
            doc.indexed_text, a.2 + 1)) acc).1.inv
      ∧ (∀ d ∈ (ds.foldl (fun (a : Bm25Index × Nat) doc =>
          (a.1.add_document a.2 (path_tokens doc.file) (tokenize doc.symbol) [] []
            doc.indexed_text, a.2 + 1)) acc).1.docs,
          d.len_by_field.doc = 0 ∧ d.len_by_field.string_lit = 0) := by
    intro ds
    induction ds with
    | nil => exact fun acc hinv hdocs => ⟨hinv, hdocs⟩
    | cons doc ds ih =>
        intro acc hinv hdocs
        have hstep := add_document_no_doc_string acc.1 acc.2
          (path_tokens doc.file) (tokenize doc.symbol) doc.indexed_text hinv hdocs
        exact ih _ hstep.1 hstep.2
  have h := hfold docs ({}, 0) (fun ts hts => by cases hts) (fun d hd => by cases hd)
  exact ⟨h.2, h.1⟩

/-- Counterexample to C4: a document whose indexed text contains a doc
comment and the string literal `magic` still gets zero doc-field and zero
string-literal-field lengths and term frequencies from `rebuild_bm25`. -/
theorem C4_counterexample :
    extract_string_literals docC4.indexed_text = ["magic"]
    ∧ substrB ("///") docC4.indexed_text = true
    ∧ (rebuild_bm25 [docC4]).docs.map (fun d => d.len_by_field.doc) = [0]
    ∧ (rebuild_bm25 [docC4]).docs.map (fun d => d.len_by_field.string_lit) = [0]
    ∧ (rebuild_bm25 [docC4]).docs.map (fun d => d.len_by_field.code) = [7]
    ∧ (∀ ts ∈ (rebuild_bm25 [docC4]).inv, ∀ pt ∈ ts.2,
        pt.tf_by_field.doc = 0 ∧ pt.tf_by_field.string_lit = 0) := by decide

/-- Witness for C4 at the one-document list. -/
theorem C4_witness :
    docC4 ∈ ([docC4] : List SearchDoc)
    ∧ ((∀ d ∈ (rebuild_bm25 [docC4]).docs,
          d.len_by_field.doc = 0 ∧ d.len_by_field.string_lit = 0)
        ∧ InvDocStrZero (rebuild_bm25 [docC4]).inv) :=
  ⟨List.mem_singleton.mpr rfl, C4_rebuild_no_doc_string_fields [docC4]⟩

/-! ## C7 : the query pipeline -/

theorem searchK_eq (k : Nat) : searchK k = min (5 * k) 1000 := by
  unfold searchK usizeMax
  omega

theorem queryLe_iff (a b : QueryResult) : queryLe a b = true ↔
    b.score < a.score ∨ (a.score = b.score ∧ (a.file < b.file
      ∨ (a.file = b.file ∧ a.start_byte ≤ b.start_byte))) := by
  unfold queryLe
  by_cases h1 : b.score < a.score
  · rw [if_pos h1]
    simp [h1]
  · rw [if_neg h1]
    by_cases h2 : a.score < b.score
    · rw [if_pos h2]
      constructor
      · intro h
        cases h
      · rintro (h | ⟨heq, _⟩)
        · exact absurd h h1
        · exact absurd (heq ▸ h2) (lt_irrefl _)
    · rw [if_neg h2]
      have heq : a.score = b.score := le_antisymm (not_lt.mp h1) (not_lt.mp h2)
      by_cases h3 : a.file < b.file
      · rw [if_pos h3]
        simp [heq, h3]
      · rw [if_neg h3]
        by_cases h4 : b.file < a.file
        · rw [if_pos h4]
          constructor
          · intro h
            cases h
          · rintro (h | ⟨_, h5 | ⟨hfe, _⟩⟩)
            · exact absurd h h1
            · exact absurd h5 h3
            · exact absurd (hfe ▸ h4) (lt_irrefl _)
        · rw [if_neg h4]
          have hfe : a.file = b.file := le_antisymm (not_lt.mp h4) (not_lt.mp h3)
          simp [heq, hfe, h1]

theorem queryLe_total (a b : QueryResult) : queryLe a b = true ∨ queryLe b a = true := by
  rw [queryLe_iff, queryLe_iff]
  rcases lt_trichotomy a.score b.score with h | h | h
  · exact Or.inr (Or.inl h)
  · rcases lt_trichotomy a.file b.file with h2 | h2 | h2
    · exact Or.inl (Or.inr ⟨h, Or.inl h2⟩)
    · rcases Nat.le_total a.start_byte b.start_byte with h3 | h3
      · exact Or.inl (Or.inr ⟨h, Or.inr ⟨h2, h3⟩⟩)
      · exact Or.inr (Or.inr ⟨h.symm, Or.inr ⟨h2.symm, h3⟩⟩)
    · exact Or.inr (Or.inr ⟨h.symm, Or.inl h2⟩)
  · exact Or.inl (Or.inl h)

theorem queryLe_trans (a b c : QueryResult) (h1 : queryLe a b = true)
    (h2 : queryLe b c = true) : queryLe a c = true := by
  rw [queryLe_iff] at h1 h2 ⊢
  rcases h1 with h1 | ⟨he1, h1⟩
  · rcases h2 with h2 | ⟨he2, _⟩
    · exact Or.inl (lt_trans h2 h1)
    · exact Or.inl (he2 ▸ h1)
  · rcases h2 with h2 | ⟨he2, h2⟩
    · exact Or.inl (he1.symm ▸ h2)
    · refine Or.inr ⟨he1.trans he2, ?_⟩
      rcases h1 with h1 | ⟨hf1, h1⟩
      · rcases h2 with h2 | ⟨hf2, _⟩
        · exact Or.inl (lt_trans h1 h2)
        · exact Or.inl (hf2 ▸ h1)
      · rcases h2 with h2 | ⟨hf2, h2⟩
        · exact Or.inl (hf1.symm ▸ h2)
        · exact Or.inr ⟨hf1.trans hf2, le_trans h1 h2⟩

theorem mem_orderedInsertBy {α : Type} (le : α → α → Bool) (x : α) :
    ∀ (l : List α) (z : α), z ∈ orderedInsertBy le x l ↔ z = x ∨ z ∈ l
  | [], z => by simp [orderedInsertBy]
  | y :: ys, z => by
      unfold orderedInsertBy
      by_cases hxy : le x y = true
      · rw [if_pos hxy]
        constructor
        · intro h
          rcases List.mem_cons.mp h with rfl | h2
          · exact Or.inl rfl
          · exact Or.inr h2
        · rintro (rfl | h2)
          · exact List.mem_cons_self _ _
          · exact List.mem_cons_of_mem _ h2
      · rw [if_neg hxy]
        constructor
        · intro h
          rcases List.mem_cons.mp h with rfl | h2
          · exact Or.inr (List.mem_cons_self _ _)
          · rcases (mem_orderedInsertBy le x ys z).mp h2 with rfl | h3
            · exact Or.inl rfl
            · exact Or.inr (List.mem_cons_of_mem _ h3)
        · intro hz
          rcases hz with hzx | h2
          · rw [hzx]
            exact List.mem_cons_of_mem _ ((mem_orderedInsertBy le x ys x).mpr (Or.inl rfl))
          · rcases List.mem_cons.mp h2 with hzy | h3
            · rw [hzy]
              exact List.mem_cons_self _ _
            · exact List.mem_cons_of_mem _ ((mem_orderedInsertBy le x ys z).mpr (Or.inr h3))

theorem orderedInsertBy_sorted {α : Type} (le : α → α → Bool)
    (htot : ∀ a b, le a b = true ∨ le b a = true)
    (htr : ∀ a b c, le a b = true → le b c = true → le a c = true) (x : α) :
    ∀ l, List.Pairwise (fun a b => le a b = true) l →
      List.Pairwise (fun a b => le a b = true) (orderedInsertBy le x l)
  | [], _ => List.pairwise_singleton _ _
  | y :: ys, h => by
      unfold orderedInsertBy
      obtain ⟨hy, hys⟩ := List.pairwise_cons.mp h
      by_cases hxy : le x y = true
      · rw [if_pos hxy]
        refine List.pairwise_cons.mpr ⟨?_, h⟩
        intro z hz
        rcases List.mem_cons.mp hz with rfl | hz2
        · exact hxy
        · exact htr x y z hxy (hy z hz2)
      · rw [if_neg hxy]
        refine List.pairwise_cons.mpr ⟨?_, orderedInsertBy_sorted le htot htr x ys hys⟩
        intro z hz
        rcases (mem_orderedInsertBy le x ys z).mp hz with rfl | hz2
        · rcases htot z y with h5 | h5
          · exact absurd h5 hxy
          · exact h5
        · exact hy z hz2

theorem insertionSortBy_sorted {α : Type} (le : α → α → Bool)
    (htot : ∀ a b, le a b = true ∨ le b a = true)
    (htr : ∀ a b c, le a b = true → le b c = true → le a c = true) :
    ∀ l, List.Pairwise (fun a b => le a b = true) (insertionSortBy le l)
  | [] => List.Pairwise.nil
  | x :: xs =>
      orderedInsertBy_sorted le htot htr x _ (insertionSortBy_sorted le htot htr xs)

theorem mem_insertionSortBy {α : Type} (le : α → α → Bool) :
    ∀ (l : List α) (z : α), z ∈ insertionSortBy le l ↔ z ∈ l
  | [], z => Iff.rfl
  | x :: xs, z => by
      unfold insertionSortBy
      rw [mem_orderedInsertBy, mem_insertionSortBy le xs z, List.mem_cons]

theorem mem_execute_filtered (docs : List SearchDoc) (filters : QueryFilters) :
    ∀ (results : List Bm25SearchResult) (acc : List QueryResult) (r : QueryResult),
      r ∈ results.foldl (fun acc b =>
          match docs[b.doc_id]? with
          | none => acc
          | some doc =>
              if matches_filters doc filters then acc ++ [mkQueryResult b.doc_id b.score doc]
              else acc) acc ↔
        r ∈ acc ∨ ∃ b ∈ results, ∃ doc, docs[b.doc_id]? = some doc
          ∧ matches_filters doc filters = true ∧ r = mkQueryResult b.doc_id b.score doc
  | [], acc, r => by simp
  | b :: results, acc, r => by
      rw [List.foldl_cons]
      rw [mem_execute_filtered docs filters results _ r]
      constructor
      · rintro (hacc | ⟨b2, hb2, doc, hdoc, hm, rfl⟩)
        · revert hacc
          cases hd : docs[b.doc_id]? with
          | none =>
              intro hacc
              exact Or.inl hacc
          | some doc =>
              intro hacc0
              have hacc : r ∈ (if matches_filters doc filters
                  then acc ++ [mkQueryResult b.doc_id b.score doc] else acc) := hacc0
              by_cases hm : matches_filters doc filters = true
              · rw [if_pos hm] at hacc
                rcases List.mem_append.mp hacc with h1 | h2
                · exact Or.inl h1
                · have := List.mem_singleton.mp h2
                  subst this
                  exact Or.inr ⟨b, List.mem_cons_self _ _, doc, hd, hm, rfl⟩
              · rw [if_neg hm] at hacc
                exact Or.inl hacc
        · exact Or.inr ⟨b2, List.mem_cons_of_mem _ hb2, doc, hdoc, hm, rfl⟩
      · have hsub : ∀ (acc2 : List QueryResult), r ∈ acc2 → r ∈ (match docs[b.doc_id]? with
            | none => acc2
            | some doc =>
                if matches_filters doc filters then acc2 ++ [mkQueryResult b.doc_id b.score doc]
                else acc2) := by
          intro acc2 hr
          cases docs[b.doc_id]? with
          | none => exact hr
          | some doc =>
              show r ∈ (if matches_filters doc filters
                  then acc2 ++ [mkQueryResult b.doc_id b.score doc] else acc2)
              by_cases hm : matches_filters doc filters = true
              · rw [if_pos hm]
                exact List.mem_append.mpr (Or.inl hr)
              · rw [if_neg hm]
                exact hr
        rintro (hacc | ⟨b2, hb2, doc, hdoc, hm, rfl⟩)
        · exact Or.inl (hsub acc hacc)
        · rcases List.mem_cons.mp hb2 with rfl | hb3
          · refine Or.inl ?_
            rw [hdoc]
            show mkQueryResult b2.doc_id b2.score doc ∈ (if matches_filters doc filters
                then acc ++ [mkQueryResult b2.doc_id b2.score doc] else acc)
            rw [if_pos hm]
            exact List.mem_append.mpr (Or.inr (List.mem_singleton.mpr rfl))
          · exact Or.inr ⟨b2, hb3, doc, hdoc, hm, rfl⟩

theorem trunc_len {α : Type} (l : List α) (k : Nat) :
    (if l.length > k then l.take k else l).length ≤ k := by
  by_cases h : l.length > k
  · rw [if_pos h]
    simp [List.length_take]
  · rw [if_neg h]
    omega

theorem trunc_sublist {α : Type} (l : List α) (k : Nat) :
    List.Sublist (if l.length > k then l.take k else l) l := by
  by_cases h : l.length > k
  · rw [if_pos h]
    exact List.take_sublist _ _
  · rw [if_neg h]

theorem trunc_subset {α : Type} (l : List α) (k : Nat) :
    ∀ x ∈ (if l.length > k then l.take k else l), x ∈ l :=
  fun _x hx => (trunc_sublist l k).mem hx

/-- C7: `execute_query` runs the BM25 scorer with an internal top-K equal to
`5·K` clamped to at most 1000 (the exact value of
`top_k.saturating_mul(5).max(top_k).min(1000)`), keeps only results whose
document exists and passes the path/extension filters, sorts the survivors
by score descending, then file ascending, then start byte ascending,
truncates to K, and reports line and column positions translated from
0-based to 1-based (incremented by exactly 1) while byte offsets pass
through unchanged. -/
theorem C7_execute_query (searchFn : String → Nat → List Bm25SearchResult)
    (docs : List SearchDoc) (query : String) (top_k : Nat) (filters : QueryFilters) :
    searchK top_k = min (5 * top_k) 1000
    ∧ (execute_query searchFn docs query top_k filters).length ≤ top_k
    ∧ List.Pairwise (fun a b => queryLe a b = true)
        (execute_query searchFn docs query top_k filters)
    ∧ (∀ r ∈ execute_query searchFn docs query top_k filters,
        ∃ b ∈ searchFn query (searchK top_k), ∃ doc,
          docs[b.doc_id]? = some doc ∧ matches_filters doc filters = true
          ∧ r = mkQueryResult b.doc_id b.score doc
          ∧ r.start_line = doc.start_line + 1 ∧ r.end_line = doc.end_line + 1
          ∧ r.start_col = doc.start_col + 1 ∧ r.end_col = doc.end_col + 1
          ∧ r.start_byte = doc.start_byte ∧ r.score = b.score) := by
  have hsorted := insertionSortBy_sorted queryLe queryLe_total queryLe_trans
  refine ⟨searchK_eq top_k, trunc_len _ _, ?_, ?_⟩
  · exact List.Pairwise.sublist (trunc_sublist _ _) (hsorted _)
  · intro r hr
    have hr2 : r ∈ insertionSortBy queryLe ((searchFn query (searchK top_k)).foldl
        (fun acc b => match docs[b.doc_id]? with
          | none => acc
          | some doc =>
              if matches_filters doc filters then acc ++ [mkQueryResult b.doc_id b.score doc]
              else acc) []) := trunc_subset _ _ r hr
    have hmem := (mem_insertionSortBy queryLe _ r).mp hr2
    rcases (mem_execute_filtered docs filters _ [] r).mp hmem with h | h
    · cases h
    · obtain ⟨b, hb, doc, hdoc, hm, rfl⟩ := h
      exact ⟨b, hb, doc, hdoc, hm, rfl, rfl, rfl, rfl, rfl, rfl, rfl⟩

/-- Witness for C7: a two-document query with K = 1; the pipeline is also
evaluated concretely (doc 0 has the higher score and its 0-based line 2 and
column 1 are reported as 3 and 2). -/
theorem C7_witness :
    execute_query searchFnC7 docsC7 ("q") 1 {}
        = [⟨0, "crate::f", "src/a.rs", 4, 9, 3, 4, 2, 3, (2 : ℚ), "pf"⟩]
    ∧ (searchK 1 = min (5 * 1) 1000
        ∧ (execute_query searchFnC7 docsC7 ("q") 1 {}).length ≤ 1
        ∧ List.Pairwise (fun a b => queryLe a b = true)
            (execute_query searchFnC7 docsC7 ("q") 1 {})
        ∧ (∀ r ∈ execute_query searchFnC7 docsC7 ("q") 1 {},
            ∃ b ∈ searchFnC7 ("q") (searchK 1), ∃ doc,
              docsC7[b.doc_id]? = some doc ∧ matches_filters doc {} = true
              ∧ r = mkQueryResult b.doc_id b.score doc
              ∧ r.start_line = doc.start_line + 1 ∧ r.end_line = doc.end_line + 1
              ∧ r.start_col = doc.start_col + 1 ∧ r.end_col = doc.end_col + 1
              ∧ r.start_byte = doc.start_byte ∧ r.score = b.score)) :=
  ⟨by decide, C7_execute_query searchFnC7 docsC7 ("q") 1 {}⟩

/-! ## C2 : a second index run with no filesystem change is a no-op -/

theorem alookup_aremove_ne {α β : Type} [DecidableEq α] :
    ∀ (l : List (α × β)) (j k : α), j ≠ k →
      alookup (aremove l j) k = alookup l k
  | [], _, _, _ => rfl
  | (k0, v0) :: rest, j, k, hj => by
      by_cases h0 : k0 = j
      · rw [aremove_cons_self v0 rest h0, alookup_cons,
          if_neg (fun h => hj (h0.symm.trans h))]
        exact alookup_aremove_ne rest j k hj
      · rw [aremove_cons_ne v0 rest h0, alookup_cons, alookup_cons]
        by_cases hk : k0 = k
        · rw [if_pos hk, if_pos hk]
        · rw [if_neg hk, if_neg hk]
          exact alookup_aremove_ne rest j k hj

theorem alookup_foldl_aremove_not_mem {α β : Type} [DecidableEq α] :
    ∀ (ks : List α) (l : List (α × β)) (k : α), k ∉ ks →
      alookup (ks.foldl aremove l) k = alookup l k
  | [], _, _, _ => rfl
  | j :: ks, l, k, hk => by
      rw [List.foldl_cons,
        alookup_foldl_aremove_not_mem ks (aremove l j) k
          (fun h => hk (List.mem_cons_of_mem _ h)),
        alookup_aremove_ne l j k (fun h => hk (h ▸ List.mem_cons_self _ _))]

theorem mem_foldl_aremove {α β : Type} [DecidableEq α] :
    ∀ (ks : List α) (l : List (α × β)) (e : α × β),
      e ∈ ks.foldl aremove l → e ∈ l ∧ e.1 ∉ ks
  | [], _, _, h => ⟨h, List.not_mem_nil _⟩
  | k :: ks, l, e, h => by
      rw [List.foldl_cons] at h
      obtain ⟨h1, h2⟩ := mem_foldl_aremove ks (aremove l k) e h
      have h3 := List.mem_filter.mp h1
      have hne : e.1 ≠ k := by simpa using h3.2
      refine ⟨h3.1, ?_⟩
      intro hmem
      rcases List.mem_cons.mp hmem with h4 | h4
      · exact hne h4
      · exact h2 h4

theorem contains_iff_mem_str (l : List String) (k : String) :
    l.contains k = true ↔ k ∈ l := by
  induction l with
  | nil => simp
  | cons x xs ih =>
      simp [List.contains_cons, ih, beq_iff_eq]

theorem classify_all_match :
    ∀ (fs : List (String × FileFingerprint)) (acc : ClassifyAcc),
      (∀ f ∈ fs, alookup acc.manifest f.1 = some f.2) →
      fs.foldl classifyStep acc = { acc with skipped := acc.skipped + fs.length }
  | [], acc, _ => by simp
  | f :: fs, acc, h => by
      have hf := h f (List.mem_cons_self _ _)
      have hstep : classifyStep acc f = { acc with skipped := acc.skipped + 1 } := by
        unfold classifyStep
        rw [if_pos hf]
      rw [List.foldl_cons, hstep]
      have hrec := classify_all_match fs
        { skipped := acc.skipped + 1, changed := acc.changed, manifest := acc.manifest }
        (fun g hg => h g (List.mem_cons_of_mem _ hg))
      rw [show ({ acc with skipped := acc.skipped + 1 } : ClassifyAcc)
          = { skipped := acc.skipped + 1, changed := acc.changed,
              manifest := acc.manifest } from rfl, hrec]
      show ({ skipped := acc.skipped + 1 + fs.length, changed := acc.changed,
              manifest := acc.manifest } : ClassifyAcc) = _
      have harith : acc.skipped + 1 + fs.length = acc.skipped + (f :: fs).length := by
        simp only [List.length_cons]
        omega
      rw [harith]

theorem classify_manifest_spec :
    ∀ (fs : List (String × FileFingerprint)) (acc : ClassifyAcc),
      (fs.map Prod.fst).Nodup →
      (∀ f ∈ fs, alookup (fs.foldl classifyStep acc).manifest f.1 = some f.2)
      ∧ (∀ k, (∀ f ∈ fs, f.1 ≠ k) →
          alookup (fs.foldl classifyStep acc).manifest k = alookup acc.manifest k)
  | [], _, _ => ⟨fun f hf => absurd hf (List.not_mem_nil f), fun _ _ => rfl⟩
  | f :: fs, acc, hnd => by
      have hnd1 : (f.1 :: fs.map Prod.fst).Nodup := by
        simpa only [List.map_cons] using hnd
      have hnotin : f.1 ∉ fs.map Prod.fst := (List.nodup_cons.mp hnd1).1
      have hnd2 : (fs.map Prod.fst).Nodup := (List.nodup_cons.mp hnd1).2
      obtain ⟨ih1, ih2⟩ := classify_manifest_spec fs (classifyStep acc f) hnd2
      have hstep_self : alookup (classifyStep acc f).manifest f.1 = some f.2 := by
        unfold classifyStep
        by_cases hl : alookup acc.manifest f.1 = some f.2
        · rw [if_pos hl]
          exact hl
        · rw [if_neg hl]
          exact alookup_ainsert_self acc.manifest f.1 f.2
      have hstep_ne : ∀ k, f.1 ≠ k →
          alookup (classifyStep acc f).manifest k = alookup acc.manifest k := by
        intro k hk
        unfold classifyStep
        by_cases hl : alookup acc.manifest f.1 = some f.2
        · rw [if_pos hl]
        · rw [if_neg hl]
          exact alookup_ainsert_ne acc.manifest f.1 k f.2 (fun h => hk h.symm)
      constructor
      · intro g hg
        rcases List.mem_cons.mp hg with hgf | hg2
        · rw [hgf, List.foldl_cons,
            ih2 f.1 (fun g2 hg2 heq => hnotin (heq ▸ List.mem_map_of_mem Prod.fst hg2))]
          exact hstep_self
        · rw [List.foldl_cons]
          exact ih1 g hg2
      · intro k hk
        rw [List.foldl_cons,
          ih2 k (fun g hg => hk g (List.mem_cons_of_mem _ hg)),
          hstep_ne k (hk f (List.mem_cons_self _ _))]

/-- C2 (amended): for two consecutive `index` runs with `force = false` and
no filesystem change between them (same discovery list, same fingerprints,
same parse outcomes), the second run reports `total_files` = the discovery
count, `parsed_files = 0`, `skipped_files = total_files`,
`removed_files = 0` and `docs_indexed = 0`, and leaves the state (hence
`stats()`), the manifest and the search docs exactly as after the first run.
With `force = true` the cache is purged and everything is re-parsed, which
is the one way the original claim fails. -/
theorem C2_index_noop_second_run (parsedOf : String → Option ParsedFile)
    (fs : List (String × FileFingerprint)) (st : OciState)
    (manifest : Manifest) (docs : List SearchDoc)
    (hnd : (fs.map Prod.fst).Nodup) :
    let r1 := indexRun parsedOf fs false st manifest docs
    let r2 := indexRun parsedOf fs false r1.state r1.manifest r1.docs
    r2.report = { total_files := fs.length, parsed_files := 0,
                  skipped_files := fs.length, removed_files := 0,
                  docs_indexed := 0 }
    ∧ r2.state = r1.state
    ∧ OciState.stats r2.state = OciState.stats r1.state
    ∧ r2.manifest = r1.manifest
    ∧ r2.docs = r1.docs := by
  intro r1 r2
  have hm1 : r1.manifest
      = (((fs.foldl classifyStep ⟨0, [], manifest⟩).manifest.map (fun e => e.1)).filter
          (fun k => ¬ (fs.map (fun f => f.1)).contains k)).dedup.foldl aremove
        (fs.foldl classifyStep ⟨0, [], manifest⟩).manifest := rfl
  have hA : ∀ f ∈ fs, alookup r1.manifest f.1 = some f.2 := by
    intro f hf
    have hcls := (classify_manifest_spec fs ⟨0, [], manifest⟩ hnd).1 f hf
    have hnotrem : f.1 ∉ (((fs.foldl classifyStep ⟨0, [], manifest⟩).manifest.map
        (fun e => e.1)).filter (fun k => ¬ (fs.map (fun f => f.1)).contains k)).dedup := by
      intro hmem
      have hpred := (List.mem_filter.mp (List.mem_dedup.mp hmem)).2
      have hnc : ¬ (fs.map (fun f => f.1)).contains f.1 = true := by
        simpa using hpred
      exact hnc ((contains_iff_mem_str _ _).mpr (List.mem_map_of_mem _ hf))
    rw [hm1, alookup_foldl_aremove_not_mem _ _ _ hnotrem]
    exact hcls
  have hB : ∀ e ∈ r1.manifest, e.1 ∈ fs.map (fun f => f.1) := by
    intro e he
    rw [hm1] at he
    obtain ⟨h1, h2⟩ := mem_foldl_aremove _ _ e he
    by_contra hno
    apply h2
    have hcc : (fs.map (fun f => f.1)).contains e.1 = false := by
      cases hc2 : (fs.map (fun f => f.1)).contains e.1
      · rfl
      · exact absurd ((contains_iff_mem_str _ _).mp hc2) hno
    refine List.mem_dedup.mpr (List.mem_filter.mpr ⟨List.mem_map_of_mem _ h1, ?_⟩)
    exact decide_eq_true (fun h => Bool.false_ne_true (hcc ▸ h))
  have hcls2 : fs.foldl classifyStep ⟨0, [], r1.manifest⟩
      = ⟨fs.length, [], r1.manifest⟩ := by
    rw [classify_all_match fs ⟨0, [], r1.manifest⟩ hA]
    show ({ skipped := 0 + fs.length, changed := [], manifest := r1.manifest }
        : ClassifyAcc) = _
    rw [Nat.zero_add]
  have hrem2 : ((r1.manifest.map (fun e => e.1)).filter
      (fun k => ¬ (fs.map (fun f => f.1)).contains k)).dedup = [] := by
    have hfil : (r1.manifest.map (fun e => e.1)).filter
        (fun k => ¬ (fs.map (fun f => f.1)).contains k) = [] := by
      rw [List.filter_eq_nil_iff]
      intro k hkmem
      obtain ⟨e, he, rfl⟩ := List.mem_map.mp hkmem
      have hc : (fs.map (fun f => f.1)).contains e.1 = true :=
        (contains_iff_mem_str _ _).mpr (hB e he)
      intro hdec
      exact (of_decide_eq_true hdec) hc
    rw [hfil]
    rfl
  have hb : r1.state.has_bm25_index = true := rfl
  have hstate : ({ r1.state with has_bm25_index := true } : OciState) = r1.state := by
    rw [← hb]
  have hr2 : r2 =
      { report :=
          { total_files := fs.length, parsed_files := 0,
            skipped_files := fs.length, removed_files := 0, docs_indexed := 0 },
        state := { r1.state with has_bm25_index := true },
        manifest := r1.manifest, docs := r1.docs } := by
    show indexRunCore parsedOf fs r1.state r1.manifest r1.docs = _
    unfold indexRunCore
    simp only [hcls2, hrem2, List.foldl_nil, List.nil_append, List.append_nil,
      Nat.sub_self]
    rfl
  rw [hr2]
  exact ⟨rfl, hstate, by rw [hstate], rfl, rfl⟩

/-- Counterexample to C2 over all options: with `force = true`, the second
run on an unchanged filesystem purges the cache and re-parses everything,
reporting `parsed_files = 1` and `skipped_files = 0` on a one-file tree
instead of the claimed `parsed_files = 0`, `skipped_files = total_files`. -/
theorem C2_counterexample :
    runC2a.report = { total_files := 1, parsed_files := 1, skipped_files := 0,
                      removed_files := 0, docs_indexed := 1 }
    ∧ runC2force.report.parsed_files = 1
    ∧ runC2force.report.skipped_files = 0
    ∧ runC2force.report.total_files = 1 := by decide

/-- Witness for C2 on the one-file filesystem snapshot. -/
theorem C2_witness :
    (fsC2.map Prod.fst).Nodup
    ∧ (let r1 := indexRun parsedC2 fsC2 false OciState.empty [] []
       let r2 := indexRun parsedC2 fsC2 false r1.state r1.manifest r1.docs
       r2.report = { total_files := fsC2.length, parsed_files := 0,
                     skipped_files := fsC2.length, removed_files := 0,
                     docs_indexed := 0 }
       ∧ r2.state = r1.state
       ∧ OciState.stats r2.state = OciState.stats r1.state
       ∧ r2.manifest = r1.manifest
       ∧ r2.docs = r1.docs) :=
  ⟨by decide, C2_index_noop_second_run parsedC2 fsC2 OciState.empty [] [] (by decide)⟩

end Omni
